import Mathlib

/-!
Verification of the EVE-Data-Extractor hierarchical assembly engine
(`sdeDataExtractor.py`) against its natural-language specification.

The Python source is shallowly embedded: YAML tables arrive as
insertion-ordered association lists (modelling Python `dict.items()`),
Python `dict` writes are modelled by `dinsert` (replace in place, else
append, as CPython dicts behave), and Python's stable `sorted(...)` is
modelled by the stable insertion sort `sortBy`.  Numeric scalar fields
that the source merely copies (volumes, masses, security) are carried as
`Rat`; the source performs no arithmetic on them.  `dict.get(k, d)` is
modelled by `Option` fields with explicit `getD` at each use site.
-/

namespace EveSDE

/-! ## Generic dictionary / sorting utilities -/

/-- Python `d[k] = v` on an insertion-ordered dict rendered as an
association list: if `k` is present its binding is replaced in place
(keeping its position), otherwise `(k, v)` is appended at the end. -/
def dinsert {α : Type} (d : List (String × α)) (k : String) (v : α) :
    List (String × α) :=
  match d with
  | [] => [(k, v)]
  | (k0, v0) :: rest =>
    if k0 = k then (k, v) :: rest else (k0, v0) :: dinsert rest k v

/-- Insert `x` into `l` after every element strictly smaller than `x`
(and after no other): the insertion step of a stable insertion sort. -/
def insOrd {α : Type} (lt : α → α → Bool) (x : α) : List α → List α
  | [] => [x]
  | y :: ys => if lt y x then y :: insOrd lt x ys else x :: y :: ys

/-- Stable sort by the strict comparison `lt`; for a total preorder this
agrees with Python's stable `sorted`. -/
def sortBy {α : Type} (lt : α → α → Bool) : List α → List α
  | [] => []
  | x :: xs => insOrd lt x (sortBy lt xs)

/-- Python's string comparison on char lists: lexicographic by code
point, a strict prefix is smaller. -/
def chLt : List Char → List Char → Bool
  | [], [] => false
  | [], _ :: _ => true
  | _ :: _, [] => false
  | a :: as, b :: bs => if a < b then true else if b < a then false else chLt as bs

/-- Python's `s1 < s2` for strings (an executable model of the `<` used
by `sorted`). -/
def strLtB (a b : String) : Bool := chLt a.data b.data

/-! ## String helpers mirroring the Python string operations used -/

/-- ASCII lowercasing, matching Python `str.lower()` on the ASCII names
this dataset uses. -/
def lowerChar (c : Char) : Char :=
  if 'A' ≤ c ∧ c ≤ 'Z' then Char.ofNat (c.toNat + 32) else c

def lowerStr (s : String) : String := ⟨s.data.map lowerChar⟩

/-- Python `s.startswith(p)`. -/
def strStarts (p s : String) : Bool := p.data.isPrefixOf s.data

/-- Python's default `str.strip()` whitespace set. -/
def isPySpace (c : Char) : Bool :=
  c == ' ' || c == '\t' || c == '\n' || c == '\r' || c == '\x0b' || c == '\x0c'

/-- Python `s.strip()`. -/
def pyStrip (s : String) : String :=
  ⟨((s.data.dropWhile isPySpace).reverse.dropWhile isPySpace).reverse⟩

/-- Python `s[n:]` (drop the first `n` code points). -/
def strDrop (s : String) (n : Nat) : String := ⟨s.data.drop n⟩

/-- Python `needle in hay` on char lists (contiguous substring test). -/
def subList (needle : List Char) : List Char → Bool
  | [] => needle.isEmpty
  | c :: rest => needle.isPrefixOf (c :: rest) || subList needle rest

/-- Python `needle in hay` for strings. -/
def containsSub (needle hay : String) : Bool := subList needle.data hay.data

/-! ## Ore/Ice/Moon-Ore Canonicalizer (`group_ore_subtypes`)

The entry dicts built by `extract_ores_ice_and_moon_ores` (keys
`typeID`, `name`, `volume`, `group`, `refined_output`) are the items the
canonicalizer consumes. -/

/-- A MineableEntry, i.e. the `entry` dict of
`extract_ores_ice_and_moon_ores`: `{typeID, name, volume, group,
refined_output}` with `refined_output` a list of
`(materialTypeID, quantity)` pairs. -/
structure MEItem where
  typeID : Int
  name : String
  volume : Rat
  group : String
  refined_output : List (Int × Int)
deriving DecidableEq, Repr

/-- The `prefixes` list chosen for `item_type == "ore"` (and, with the
same literal contents, for `"moon_ore"`). -/
def orePrefixList : List String :=
  ["concentrated ", "dense ", "solid ", "thick ", "prismatic ",
   "luminous ", "gleaming ", "condensed ", "massive ", "smooth "]

/-- The `prefixes` list chosen for `item_type == "ice"`. -/
def icePrefixList : List String :=
  ["enriched ", "thick ", "pristine ", "smooth ", "crystalline "]

/-- The `if/elif` dispatch on `item_type` selecting the prefix list. -/
def prefixesFor (item_type : String) : List String :=
  if item_type = "ore" then orePrefixList
  else if item_type = "ice" then icePrefixList
  else if item_type = "moon_ore" then orePrefixList
  else []

/-- The per-item loop body of the canonicalizer's first pass: try each
prefix in the given order against the lower-cased name; the first match
yields `some` of the stripped base name (`name[len(prefix):].strip()`),
no match yields `none` (the item is itself a base). -/
def stripName (ps : List String) (name : String) : Option String :=
  match ps with
  | [] => none
  | p :: rest =>
    if strStarts p (lowerStr name) then some (pyStrip (strDrop name p.data.length))
    else stripName rest name

/-- Classification of one item: `(base_name, is_base)` exactly as the
first pass computes them. -/
def classifyItem (ps : List String) (it : MEItem) : String × Bool :=
  match stripName ps it.name with
  | some b => (b, false)
  | none => (it.name, true)

/-- One `base_variants` bucket: the `{"base": ..., "variants": [...]}`
dict. -/
structure BVEntry where
  base : Option MEItem
  variants : List MEItem
deriving DecidableEq, Repr

/-- The fresh bucket created on first touch of a base name
(`{"base": None, "variants": []}` immediately updated with the item). -/
def bvInit (isB : Bool) (it : MEItem) : BVEntry :=
  if isB then ⟨some it, []⟩ else ⟨none, [it]⟩

/-- The in-place update of an existing bucket: set `base` or append to
`variants`. -/
def bvUpd (isB : Bool) (it : MEItem) (e : BVEntry) : BVEntry :=
  if isB then ⟨some it, e.variants⟩ else ⟨e.base, e.variants ++ [it]⟩

/-- The `base_variants` dict update performed for one item: create the
bucket on first touch, then either set `base` or append to `variants`. -/
def bvAdd (bv : List (String × BVEntry)) (k : String) (isB : Bool)
    (it : MEItem) : List (String × BVEntry) :=
  match bv with
  | [] => [(k, bvInit isB it)]
  | (k0, e) :: rest =>
    if k0 = k then (k0, bvUpd isB it e) :: rest
    else (k0, e) :: bvAdd rest k isB it

/-- One iteration of the first-pass loop: classify the item and update
`base_variants`. -/
def fpStep (ps : List String) (bv : List (String × BVEntry)) (it : MEItem) :
    List (String × BVEntry) :=
  bvAdd bv (classifyItem ps it).1 (classifyItem ps it).2 it

/-- First pass of `group_ore_subtypes`: fold all items into
`base_variants` in input order. -/
def firstPass (ps : List String) (items : List MEItem) :
    List (String × BVEntry) :=
  items.foldl (fpStep ps) []

/-- The nested variant dict value (`typeID`, `name`, `volume`,
`refined_output`; no `group`). -/
structure OreVariantRec where
  typeID : Int
  name : String
  volume : Rat
  refined_output : List (Int × Int)
deriving DecidableEq, Repr

/-- One base node of the canonicalizer output: the base item's five
fields plus the nested variant bindings.  In the source this is a single
dict; the variant display names produced by the category prefix lists
always start with a known multi-word prefix and therefore never collide
with the five fixed field keys, so the nested dict is rendered as the
five fields plus an insertion-ordered variant map. -/
structure OreNode where
  typeID : Int
  name : String
  volume : Rat
  group : String
  refined_output : List (Int × Int)
  variants : List (String × OreVariantRec)
deriving DecidableEq, Repr

def mkVariantRec (it : MEItem) : OreVariantRec :=
  ⟨it.typeID, it.name, it.volume, it.refined_output⟩

/-- Second-pass node construction for one retained bucket: base fields,
then each variant (sorted by display name) assigned under its full name. -/
def mkOreNode (b : MEItem) (vars : List MEItem) : OreNode :=
  { typeID := b.typeID, name := b.name, volume := b.volume,
    group := b.group, refined_output := b.refined_output,
    variants := (sortBy (fun x y => strLtB x.name y.name) vars).foldl
      (fun d v => dinsert d v.name (mkVariantRec v)) [] }

/-- One iteration of the second-pass loop: skip a bucket with no base
item (orphaned variants), otherwise emit its node. -/
def spStep (acc : List (String × OreNode)) (ke : String × BVEntry) :
    List (String × OreNode) :=
  match ke.2.base with
  | none => acc
  | some b => acc ++ [(ke.1, mkOreNode b ke.2.variants)]

/-- Second pass of `group_ore_subtypes`: walk `base_variants` in
insertion order, skip buckets with no base item, emit a node per
retained bucket.  (Bucket keys are unique, so the dict assignment
`subtypes[base_name] = ...` is an append.) -/
def secondPass (bv : List (String × BVEntry)) : List (String × OreNode) :=
  bv.foldl spStep []

/-- The canonicalizer core on an explicit prefix list:
`dict(sorted(subtypes.items()))` of the second pass. -/
def groupCore (ps : List String) (items : List MEItem) :
    List (String × OreNode) :=
  sortBy (fun a b => strLtB a.1 b.1) (secondPass (firstPass ps items))

/-- `group_ore_subtypes(items, item_type)`. -/
def group_ore_subtypes (items : List MEItem) (item_type : String) :
    List (String × OreNode) :=
  groupCore (prefixesFor item_type) items

/-- Flattening of the canonicalizer output back to a flat item list:
each base record followed by its nested variant records.  Variant
records carry no `group` field in the output, so the flattened variants
receive the filler value `g0` (the canonicalizer never reads the
`group` field of a variant). -/
def flattenNode (g0 : String) (kn : String × OreNode) : List MEItem :=
  { typeID := kn.2.typeID, name := kn.2.name, volume := kn.2.volume,
    group := kn.2.group, refined_output := kn.2.refined_output } ::
  kn.2.variants.map (fun kv =>
    { typeID := kv.2.typeID, name := kv.2.name, volume := kv.2.volume,
      group := g0, refined_output := kv.2.refined_output })

def flattenOut (g0 : String) (out : List (String × OreNode)) : List MEItem :=
  (out.map (flattenNode g0)).flatten

/-! ## Lemmas about the generic utilities -/

theorem insOrd_perm {α : Type} (lt : α → α → Bool) (x : α) (l : List α) :
    List.Perm (insOrd lt x l) (x :: l) := by
  induction l with
  | nil => simp [insOrd]
  | cons y ys ih =>
    simp only [insOrd]
    by_cases h : lt y x
    · simpa [h] using (ih.cons y).trans (List.Perm.swap x y ys)
    · simp [h]

theorem sortBy_perm {α : Type} (lt : α → α → Bool) (l : List α) :
    List.Perm (sortBy lt l) l := by
  induction l with
  | nil => simp [sortBy]
  | cons x xs ih => exact (insOrd_perm lt x (sortBy lt xs)).trans (ih.cons x)

theorem insOrd_pairwise {α : Type} (lt : α → α → Bool)
    (hasym : ∀ a b, lt a b = true → lt b a = false)
    (hneg : ∀ a b c, lt a b = false → lt b c = false → lt a c = false)
    (x : α) {l : List α} (h : l.Pairwise (fun a b => lt b a = false)) :
    (insOrd lt x l).Pairwise (fun a b => lt b a = false) := by
  induction l with
  | nil => simp [insOrd]
  | cons y ys ih =>
    rcases List.pairwise_cons.1 h with ⟨hy, hys⟩
    simp only [insOrd]
    by_cases hlt : lt y x
    · simp only [hlt, if_true]
      refine List.pairwise_cons.2 ⟨?_, ih hys⟩
      intro z hz
      rcases List.mem_cons.1 ((insOrd_perm lt x ys).mem_iff.1 hz) with rfl | hz'
      · exact hasym y z hlt
      · exact hy z hz'
    · have hlt' : lt y x = false := by
        cases hxy : lt y x
        · rfl
        · exact absurd hxy hlt
      simp only [hlt, if_false]
      refine List.pairwise_cons.2 ⟨?_, h⟩
      intro z hz
      rcases List.mem_cons.1 hz with rfl | hz'
      · exact hlt'
      · exact hneg z y x (hy z hz') hlt'

theorem sortBy_pairwise {α : Type} (lt : α → α → Bool)
    (hasym : ∀ a b, lt a b = true → lt b a = false)
    (hneg : ∀ a b c, lt a b = false → lt b c = false → lt a c = false)
    (l : List α) :
    (sortBy lt l).Pairwise (fun a b => lt b a = false) := by
  induction l with
  | nil => simp [sortBy]
  | cons x xs ih => exact insOrd_pairwise lt hasym hneg x ih

theorem sortBy_of_pairwise {α : Type} (lt : α → α → Bool) {l : List α}
    (h : l.Pairwise (fun a b => lt b a = false)) : sortBy lt l = l := by
  induction l with
  | nil => rfl
  | cons x xs ih =>
    rcases List.pairwise_cons.1 h with ⟨hx, hxs⟩
    simp only [sortBy, ih hxs]
    cases xs with
    | nil => rfl
    | cons y ys => simp [insOrd, hx y (by simp)]

theorem chLt_iff : ∀ as bs : List Char, chLt as bs = true ↔ List.Lex (· < ·) as bs
  | [], [] =>
    ⟨fun h => by simp [chLt] at h, fun h => absurd h (List.Lex.not_nil_right _ _)⟩
  | [], _b :: _bs => ⟨fun _ => List.Lex.nil, fun _ => rfl⟩
  | _a :: _as, [] =>
    ⟨fun h => by simp [chLt] at h, fun h => absurd h (List.Lex.not_nil_right _ _)⟩
  | a :: as, b :: bs => by
    show (if a < b then true else if b < a then false else chLt as bs) = true ↔ _
    by_cases h1 : a < b
    · rw [if_pos h1]
      exact ⟨fun _ => List.Lex.rel h1, fun _ => rfl⟩
    · by_cases h2 : b < a
      · rw [if_neg h1, if_pos h2]
        constructor
        · intro h
          cases h
        · intro h
          cases h with
          | cons h' => exact absurd h2 (lt_irrefl a)
          | rel h' => exact absurd h' h1
      · have hab : a = b := le_antisymm (not_lt.1 h2) (not_lt.1 h1)
        subst hab
        rw [if_neg h1, if_neg h2, chLt_iff as bs]
        constructor
        · intro h
          exact List.Lex.cons h
        · intro h
          cases h with
          | cons h' => exact h'
          | rel h' => exact absurd h' (lt_irrefl a)

theorem strLtB_iff (a b : String) : strLtB a b = true ↔ a < b := by
  rw [String.lt_iff_toList_lt]
  exact chLt_iff a.data b.data

theorem dinsert_fresh {α : Type} {d : List (String × α)} {k : String} (v : α)
    (h : k ∉ d.map Prod.fst) : dinsert d k v = d ++ [(k, v)] := by
  induction d with
  | nil => rfl
  | cons p rest ih =>
    obtain ⟨k0, v0⟩ := p
    simp only [List.map_cons, List.mem_cons] at h
    push_neg at h
    simp only [dinsert, if_neg (fun hh : k0 = k => h.1 hh.symm), List.cons_append]
    rw [ih h.2]

theorem dinsert_mem {α : Type} {d : List (String × α)} {k : String} {v : α}
    {x : String × α} (hx : x ∈ dinsert d k v) : x ∈ d ∨ x = (k, v) := by
  induction d with
  | nil => simpa [dinsert] using hx
  | cons p rest ih =>
    obtain ⟨k0, v0⟩ := p
    simp only [dinsert] at hx
    by_cases h0 : k0 = k
    · rw [if_pos h0] at hx
      rcases List.mem_cons.1 hx with rfl | hx'
      · exact Or.inr rfl
      · exact Or.inl (List.mem_cons_of_mem _ hx')
    · rw [if_neg h0] at hx
      rcases List.mem_cons.1 hx with rfl | hx'
      · exact Or.inl (List.mem_cons_self _ _)
      · rcases ih hx' with h | h
        · exact Or.inl (List.mem_cons_of_mem _ h)
        · exact Or.inr h

theorem dinsert_keys {α : Type} (d : List (String × α)) (k : String) (v : α) :
    (dinsert d k v).map Prod.fst =
      if k ∈ d.map Prod.fst then d.map Prod.fst else d.map Prod.fst ++ [k] := by
  induction d with
  | nil => simp [dinsert]
  | cons p rest ih =>
    obtain ⟨k0, v0⟩ := p
    by_cases h0 : k0 = k
    · subst h0
      simp [dinsert]
    · have hmem : (k ∈ (k0, v0).1 :: rest.map Prod.fst) ↔ (k ∈ rest.map Prod.fst) := by
        constructor
        · intro h
          rcases List.mem_cons.1 h with h' | h'
          · exact absurd h'.symm h0
          · exact h'
        · exact fun h => List.mem_cons_of_mem _ h
      simp only [dinsert, if_neg h0, List.map_cons] at *
      by_cases hm : k ∈ rest.map Prod.fst
      · rw [ih, if_pos hm, if_pos (hmem.2 hm)]
      · rw [ih, if_neg hm, if_neg (fun hh => hm (hmem.1 hh)), List.cons_append]

theorem dinsert_keys_pairwise {α : Type} {d : List (String × α)} {k : String} {v : α}
    (hd : (d.map Prod.fst).Pairwise (· < ·))
    (hk : ∀ k0 ∈ d.map Prod.fst, ¬ k < k0) :
    ((dinsert d k v).map Prod.fst).Pairwise (· < ·) := by
  induction d with
  | nil => simp [dinsert]
  | cons p rest ih =>
    obtain ⟨k0, v0⟩ := p
    simp only [List.map_cons] at hd hk
    rcases List.pairwise_cons.1 hd with ⟨h0, hrest⟩
    by_cases he : k0 = k
    · subst he
      simp only [dinsert, if_pos rfl, List.map_cons]
      exact List.pairwise_cons.2 ⟨h0, hrest⟩
    · have hk0k : k0 < k := by
        rcases lt_trichotomy k0 k with h | h | h
        · exact h
        · exact absurd h he
        · exact absurd h (hk k0 (List.mem_cons_self _ _))
      simp only [dinsert, if_neg he, List.map_cons]
      refine List.pairwise_cons.2
        ⟨?_, ih hrest (fun k1 h1 => hk k1 (List.mem_cons_of_mem _ h1))⟩
      intro k1 h1
      rw [dinsert_keys] at h1
      by_cases hm : k ∈ rest.map Prod.fst
      · rw [if_pos hm] at h1
        exact h0 k1 h1
      · rw [if_neg hm] at h1
        rcases List.mem_append.1 h1 with h1' | h1'
        · exact h0 k1 h1'
        · simp only [List.mem_singleton] at h1'
          subst h1'
          exact hk0k

/-- Folding Python dict assignments over a list of key/value pairs. -/
def dfold {α : Type} (acc : List (String × α)) (l : List (String × α)) :
    List (String × α) :=
  l.foldl (fun d kv => dinsert d kv.1 kv.2) acc

theorem dfold_mem {α : Type} {l : List (String × α)} {acc : List (String × α)}
    {x : String × α} (hx : x ∈ dfold acc l) : x ∈ acc ∨ x ∈ l := by
  induction l generalizing acc with
  | nil => exact Or.inl hx
  | cons kv rest ih =>
    rcases @ih (dinsert acc kv.1 kv.2) hx with h | h
    · rcases dinsert_mem h with h' | h'
      · exact Or.inl h'
      · exact Or.inr (by simp [h'])
    · exact Or.inr (List.mem_cons_of_mem _ h)

theorem dfold_fresh_nodup {α : Type} {l : List (String × α)} {acc : List (String × α)}
    (h1 : ∀ x ∈ l, x.1 ∉ acc.map Prod.fst) (h2 : (l.map Prod.fst).Nodup) :
    dfold acc l = acc ++ l := by
  induction l generalizing acc with
  | nil => simp [dfold]
  | cons kv rest ih =>
    simp only [List.map_cons, List.nodup_cons] at h2
    have hfresh : kv.1 ∉ acc.map Prod.fst := h1 kv (List.mem_cons_self _ _)
    have step : dinsert acc kv.1 kv.2 = acc ++ [kv] := by
      rw [dinsert_fresh kv.2 hfresh]
    have : dfold acc (kv :: rest) = dfold (acc ++ [kv]) rest := by
      simp only [dfold, List.foldl_cons, step]
    rw [this, ih, List.append_assoc]
    · rfl
    · intro x hx
      simp only [List.map_append, List.mem_append, List.map_cons]
      push_neg
      refine ⟨fun hh => h1 x (List.mem_cons_of_mem _ hx) hh, ?_⟩
      simp only [List.map_nil, List.mem_singleton]
      intro hh
      exact h2.1 (hh ▸ List.mem_map_of_mem Prod.fst hx)
    · exact h2.2

theorem dfold_keys_pairwise {α : Type} {l : List (String × α)} {acc : List (String × α)}
    (hacc : (acc.map Prod.fst).Pairwise (· < ·))
    (hl : (l.map Prod.fst).Pairwise (fun a b => ¬ b < a))
    (hcross : ∀ a ∈ acc.map Prod.fst, ∀ x ∈ l, ¬ x.1 < a) :
    ((dfold acc l).map Prod.fst).Pairwise (· < ·) := by
  induction l generalizing acc with
  | nil => exact hacc
  | cons kv rest ih =>
    simp only [List.map_cons] at hl
    rcases List.pairwise_cons.1 hl with ⟨hkv, hrest⟩
    have hstep : ((dinsert acc kv.1 kv.2).map Prod.fst).Pairwise (· < ·) :=
      dinsert_keys_pairwise hacc (fun k0 h0 => hcross k0 h0 kv (List.mem_cons_self _ _))
    refine ih hstep hrest ?_
    intro a ha x hx
    rw [dinsert_keys] at ha
    by_cases hm : kv.1 ∈ acc.map Prod.fst
    · rw [if_pos hm] at ha
      exact hcross a ha x (List.mem_cons_of_mem _ hx)
    · rw [if_neg hm] at ha
      rcases List.mem_append.1 ha with ha' | ha'
      · exact hcross a ha' x (List.mem_cons_of_mem _ hx)
      · simp only [List.mem_singleton] at ha'
        subst ha'
        exact hkv x.1 (List.mem_map_of_mem Prod.fst hx)

/-! ## First-pass invariants of the canonicalizer -/

theorem bvAdd_nil (k : String) (isB : Bool) (it : MEItem) :
    bvAdd [] k isB it = [(k, bvInit isB it)] := rfl

theorem bvAdd_cons (k0 : String) (e0 : BVEntry) (rest : List (String × BVEntry))
    (k : String) (isB : Bool) (it : MEItem) :
    bvAdd ((k0, e0) :: rest) k isB it =
      if k0 = k then (k0, bvUpd isB it e0) :: rest
      else (k0, e0) :: bvAdd rest k isB it := rfl

theorem bvAdd_keys (bv : List (String × BVEntry)) (k : String) (isB : Bool)
    (it : MEItem) :
    (bvAdd bv k isB it).map Prod.fst =
      if k ∈ bv.map Prod.fst then bv.map Prod.fst else bv.map Prod.fst ++ [k] := by
  induction bv with
  | nil => simp [bvAdd]
  | cons p rest ih =>
    obtain ⟨k0, e0⟩ := p
    by_cases h0 : k0 = k
    · subst h0
      simp [bvAdd]
    · have hmem : (k ∈ (k0, e0).1 :: rest.map Prod.fst) ↔ (k ∈ rest.map Prod.fst) := by
        constructor
        · intro h
          rcases List.mem_cons.1 h with h' | h'
          · exact absurd h'.symm h0
          · exact h'
        · exact fun h => List.mem_cons_of_mem _ h
      simp only [bvAdd, if_neg h0, List.map_cons] at *
      by_cases hm : k ∈ rest.map Prod.fst
      · rw [ih, if_pos hm, if_pos (hmem.2 hm)]
      · rw [ih, if_neg hm, if_neg (fun hh => hm (hmem.1 hh)), List.cons_append]

theorem bvAdd_fresh {bv : List (String × BVEntry)} {k : String} (isB : Bool)
    (it : MEItem) (h : k ∉ bv.map Prod.fst) :
    bvAdd bv k isB it = bv ++ [(k, bvInit isB it)] := by
  induction bv with
  | nil => rfl
  | cons p rest ih =>
    obtain ⟨k0, e0⟩ := p
    simp only [List.map_cons, List.mem_cons] at h
    push_neg at h
    simp only [bvAdd, if_neg (fun hh : k0 = k => h.1 hh.symm), List.cons_append]
    rw [ih h.2]

theorem bvAdd_last {bv : List (String × BVEntry)} {k : String} (e : BVEntry)
    (it : MEItem) (h : k ∉ bv.map Prod.fst) :
    bvAdd (bv ++ [(k, e)]) k false it = bv ++ [(k, bvUpd false it e)] := by
  induction bv with
  | nil => simp [bvAdd]
  | cons p rest ih =>
    obtain ⟨k0, e0⟩ := p
    simp only [List.map_cons, List.mem_cons] at h
    push_neg at h
    have hstep : bvAdd (((k0, e0) :: rest) ++ [(k, e)]) k false it =
        (k0, e0) :: bvAdd (rest ++ [(k, e)]) k false it := by
      rw [List.cons_append, bvAdd_cons, if_neg (fun hh : k0 = k => h.1 hh.symm)]
    rw [hstep]
    exact congrArg (List.cons (k0, e0)) (ih h.2)

/-- Per-bucket invariant: a stored base item classified as a base with
exactly that bucket key, and every stored variant classified as a
variant of that bucket key; all drawn from the universe `S`. -/
def entGood (ps : List String) (S : List MEItem) (ke : String × BVEntry) : Prop :=
  (∀ b, ke.2.base = some b → b ∈ S ∧ classifyItem ps b = (ke.1, true)) ∧
  (∀ v ∈ ke.2.variants, v ∈ S ∧ classifyItem ps v = (ke.1, false))

/-- Invariant of the whole `base_variants` dict. -/
def bvGood (ps : List String) (S : List MEItem)
    (bv : List (String × BVEntry)) : Prop :=
  (bv.map Prod.fst).Nodup ∧ ∀ ke ∈ bv, entGood ps S ke

theorem entGood_init {ps : List String} {S : List MEItem} {it : MEItem}
    {k : String} {isB : Bool} (hit : it ∈ S)
    (hcl : classifyItem ps it = (k, isB)) :
    entGood ps S (k, bvInit isB it) := by
  cases isB with
  | true =>
    refine ⟨fun b hb => ?_, fun v hv => ?_⟩
    · simp only [bvInit, if_pos trivial, Option.some.injEq] at hb
      exact hb ▸ ⟨hit, hcl⟩
    · simp [bvInit] at hv
  | false =>
    refine ⟨fun b hb => ?_, fun v hv => ?_⟩
    · simp [bvInit] at hb
    · simp only [bvInit, Bool.false_eq_true, if_false, List.mem_singleton] at hv
      cases hv
      exact ⟨hit, hcl⟩

theorem entGood_upd {ps : List String} {S : List MEItem} {it : MEItem}
    {k : String} {isB : Bool} {e : BVEntry}
    (he : entGood ps S (k, e)) (hit : it ∈ S)
    (hcl : classifyItem ps it = (k, isB)) :
    entGood ps S (k, bvUpd isB it e) := by
  obtain ⟨hb0, hv0⟩ := he
  cases isB with
  | true =>
    refine ⟨fun b hb => ?_, fun v hv => ?_⟩
    · simp only [bvUpd, if_pos trivial, Option.some.injEq] at hb
      exact hb ▸ ⟨hit, hcl⟩
    · simp only [bvUpd, if_pos trivial] at hv
      exact hv0 v hv
  | false =>
    refine ⟨fun b hb => ?_, fun v hv => ?_⟩
    · simp only [bvUpd, Bool.false_eq_true, if_false] at hb
      exact hb0 b hb
    · simp only [bvUpd, Bool.false_eq_true, if_false, List.mem_append,
        List.mem_singleton] at hv
      rcases hv with hv' | hv'
      · exact hv0 v hv'
      · cases hv'
        exact ⟨hit, hcl⟩

theorem bvAdd_forall {ps : List String} {S : List MEItem}
    {bv : List (String × BVEntry)} {k : String} {isB : Bool} {it : MEItem}
    (hbv : ∀ ke ∈ bv, entGood ps S ke)
    (hinit : entGood ps S (k, bvInit isB it))
    (hupd : ∀ e, entGood ps S (k, e) → entGood ps S (k, bvUpd isB it e)) :
    ∀ ke ∈ bvAdd bv k isB it, entGood ps S ke := by
  induction bv with
  | nil =>
    intro ke hke
    simp only [bvAdd, List.mem_singleton] at hke
    exact hke ▸ hinit
  | cons p rest ih =>
    obtain ⟨k0, e0⟩ := p
    intro ke hke
    by_cases h0 : k0 = k
    · subst h0
      rw [bvAdd_cons, if_pos rfl] at hke
      rcases List.mem_cons.1 hke with rfl | hke'
      · exact hupd e0 (hbv (k0, e0) (List.mem_cons_self _ _))
      · exact hbv ke (List.mem_cons_of_mem _ hke')
    · rw [bvAdd_cons, if_neg h0] at hke
      rcases List.mem_cons.1 hke with rfl | hke'
      · exact hbv (k0, e0) (List.mem_cons_self _ _)
      · exact ih (fun x hx => hbv x (List.mem_cons_of_mem _ hx)) ke hke'

theorem bvAdd_keys_nodup {bv : List (String × BVEntry)} {k : String}
    {isB : Bool} {it : MEItem} (hnd : (bv.map Prod.fst).Nodup) :
    ((bvAdd bv k isB it).map Prod.fst).Nodup := by
  rw [bvAdd_keys]
  by_cases hm : k ∈ bv.map Prod.fst
  · rw [if_pos hm]; exact hnd
  · rw [if_neg hm]
    rw [List.nodup_append]
    refine ⟨hnd, List.nodup_singleton k, ?_⟩
    intro a ha hb
    have hak : a = k := List.mem_singleton.1 hb
    subst hak
    exact hm ha

theorem bvAdd_good {ps : List String} {S : List MEItem}
    {bv : List (String × BVEntry)} (hg : bvGood ps S bv) {it : MEItem}
    {k : String} {isB : Bool} (hit : it ∈ S)
    (hcl : classifyItem ps it = (k, isB)) :
    bvGood ps S (bvAdd bv k isB it) :=
  ⟨bvAdd_keys_nodup hg.1,
   bvAdd_forall hg.2 (entGood_init hit hcl)
     (fun _e he => entGood_upd he hit hcl)⟩

theorem firstPass_good (ps : List String) (items : List MEItem) :
    bvGood ps items (firstPass ps items) := by
  have aux : ∀ (l : List MEItem) (acc : List (String × BVEntry)),
      (∀ x ∈ l, x ∈ items) → bvGood ps items acc →
      bvGood ps items (l.foldl (fpStep ps) acc) := by
    intro l
    induction l with
    | nil => exact fun acc _ h => h
    | cons it rest ih =>
      intro acc hl hacc
      exact ih _ (fun x hx => hl x (List.mem_cons_of_mem _ hx))
        (bvAdd_good hacc (hl it (List.mem_cons_self _ _)) rfl)
  exact aux items [] (fun x hx => hx) ⟨List.nodup_nil, by simp⟩

/-! ## Second-pass characterization -/

theorem spStep_none {acc : List (String × OreNode)} {ke : String × BVEntry}
    (h : ke.2.base = none) : spStep acc ke = acc := by
  simp [spStep, h]

theorem spStep_some {acc : List (String × OreNode)} {ke : String × BVEntry}
    {b : MEItem} (h : ke.2.base = some b) :
    spStep acc ke = acc ++ [(ke.1, mkOreNode b ke.2.variants)] := by
  simp [spStep, h]

theorem secondPass_acc (bv : List (String × BVEntry))
    (acc : List (String × OreNode)) :
    bv.foldl spStep acc = acc ++ bv.filterMap (fun ke =>
      ke.2.base.map (fun b => (ke.1, mkOreNode b ke.2.variants))) := by
  induction bv generalizing acc with
  | nil => simp
  | cons ke rest ih =>
    rw [List.foldl_cons]
    cases hb : ke.2.base with
    | none =>
      rw [spStep_none hb, ih]
      congr 1
      rw [List.filterMap_cons]
      simp [hb]
    | some b =>
      rw [spStep_some hb, ih, List.append_assoc]
      congr 1
      rw [List.filterMap_cons]
      simp [hb]

theorem secondPass_eq (bv : List (String × BVEntry)) :
    secondPass bv = bv.filterMap (fun ke =>
      ke.2.base.map (fun b => (ke.1, mkOreNode b ke.2.variants))) := by
  simpa using secondPass_acc bv []

theorem secondPass_keys_sublist (bv : List (String × BVEntry)) :
    List.Sublist ((secondPass bv).map Prod.fst) (bv.map Prod.fst) := by
  rw [secondPass_eq]
  induction bv with
  | nil => simp
  | cons ke rest ih =>
    rw [List.filterMap_cons]
    cases hb : ke.2.base with
    | none =>
      simp only [hb, Option.map_none']
      simpa using ih.cons ke.1
    | some b =>
      simp only [hb, Option.map_some']
      simpa using ih.cons₂ ke.1

theorem groupCore_mem {ps : List String} {items : List MEItem} {k : String}
    {n : OreNode} (h : (k, n) ∈ groupCore ps items) :
    ∃ e : BVEntry, (k, e) ∈ firstPass ps items ∧
      ∃ b, e.base = some b ∧ n = mkOreNode b e.variants := by
  have hp := (sortBy_perm _ _).mem_iff.1 h
  rw [secondPass_eq, List.mem_filterMap] at hp
  obtain ⟨ke, hke, heq⟩ := hp
  simp only [Option.map_eq_some'] at heq
  obtain ⟨b, hb, hfb⟩ := heq
  obtain ⟨k1, e⟩ := ke
  simp only [Prod.mk.injEq] at hfb
  obtain ⟨hk1, hn⟩ := hfb
  exact ⟨e, by rw [← hk1]; exact hke, b, hb, hn.symm⟩

/-! ## Classification facts -/

theorem classify_base {ps : List String} {it : MEItem} {k : String}
    (h : classifyItem ps it = (k, true)) :
    it.name = k ∧ stripName ps it.name = none := by
  unfold classifyItem at h
  cases hs : stripName ps it.name with
  | none =>
    rw [hs] at h
    simp only [Prod.mk.injEq] at h
    exact ⟨h.1, rfl⟩
  | some b =>
    rw [hs] at h
    simp at h

theorem classify_var {ps : List String} {it : MEItem} {k : String}
    (h : classifyItem ps it = (k, false)) : stripName ps it.name = some k := by
  unfold classifyItem at h
  cases hs : stripName ps it.name with
  | none =>
    rw [hs] at h
    simp at h
  | some b =>
    rw [hs] at h
    simp only [Prod.mk.injEq] at h
    rw [h.1]

theorem classify_of_strip {ps : List String} {it : MEItem} {k : String}
    (h : stripName ps it.name = some k) : classifyItem ps it = (k, false) := by
  unfold classifyItem
  rw [h]

theorem classify_of_strip_none {ps : List String} {it : MEItem}
    (h : stripName ps it.name = none) : classifyItem ps it = (it.name, true) := by
  unfold classifyItem
  rw [h]

/-! ## Canonical shape of the canonicalizer output -/

theorem sortBy_rel_pairwise {α β : Type} [LinearOrder β] (f : α → β)
    (lt : α → α → Bool) (hlt : ∀ a b, lt a b = true ↔ f a < f b) (l : List α) :
    (sortBy lt l).Pairwise (fun a b => ¬ f b < f a) := by
  have hasym : ∀ a b, lt a b = true → lt b a = false := by
    intro a b h
    cases hba : lt b a
    · rfl
    · exact absurd ((hlt a b).1 h) (not_lt.2 (le_of_lt ((hlt b a).1 hba)))
  have hneg : ∀ a b c, lt a b = false → lt b c = false → lt a c = false := by
    intro a b c h1 h2
    cases hac : lt a c
    · rfl
    · have hab : ¬ f a < f b := fun hc => by rw [(hlt a b).2 hc] at h1; cases h1
      have hbc : ¬ f b < f c := fun hc => by rw [(hlt b c).2 hc] at h2; cases h2
      exact absurd ((hlt a c).1 hac)
        (not_lt.2 (le_trans (not_lt.1 hbc) (not_lt.1 hab)))
  refine (sortBy_pairwise lt hasym hneg l).imp ?_
  intro a b h hc
  rw [(hlt b a).2 hc] at h
  cases h

theorem sortBy_rel_id {α β : Type} [LinearOrder β] (f : α → β)
    (lt : α → α → Bool) (hlt : ∀ a b, lt a b = true ↔ f a < f b) {l : List α}
    (h : l.Pairwise (fun a b => ¬ f b < f a)) : sortBy lt l = l := by
  refine sortBy_of_pairwise lt (h.imp ?_)
  intro a b hr
  cases hba : lt b a
  · rfl
  · exact absurd ((hlt b a).1 hba) hr

theorem mkOreNode_variants (b : MEItem) (vars : List MEItem) :
    (mkOreNode b vars).variants =
      dfold [] ((sortBy (fun x y => strLtB x.name y.name) vars).map
        (fun v => (v.name, mkVariantRec v))) := by
  simp only [mkOreNode, dfold, List.foldl_map]

theorem groupCore_keys_sorted (ps : List String) (items : List MEItem) :
    ((groupCore ps items).map Prod.fst).Pairwise (· < ·) := by
  have hpw : (groupCore ps items).Pairwise (fun a b => ¬ (b.1 : String) < a.1) :=
    sortBy_rel_pairwise Prod.fst _ (fun a b => strLtB_iff _ _) _
  have hnd : ((groupCore ps items).map Prod.fst).Nodup := by
    have h1 : ((secondPass (firstPass ps items)).map Prod.fst).Nodup :=
      List.Nodup.sublist (secondPass_keys_sublist _) (firstPass_good ps items).1
    exact (((sortBy_perm _ _).map Prod.fst).nodup_iff).2 h1
  have hmap : (groupCore ps items).Pairwise (fun a b => (a.1 : String) ≠ b.1) :=
    List.pairwise_map.1 hnd
  exact List.pairwise_map.2
    ((hpw.and hmap).imp (fun h => lt_of_le_of_ne (not_lt.1 h.1) h.2))

/-- Every emitted node comes from a bucket whose base item is an input
item classifying as a base under exactly the node's key. -/
theorem groupCore_base_from {ps : List String} {items : List MEItem}
    {k : String} {n : OreNode} (h : (k, n) ∈ groupCore ps items) :
    ∃ b ∈ items, b.name = k ∧ classifyItem ps b = (k, true) ∧
      ∃ vars : List MEItem, n = mkOreNode b vars ∧
        ∀ v ∈ vars, v ∈ items ∧ classifyItem ps v = (k, false) := by
  obtain ⟨e, hke, b, hb, rfl⟩ := groupCore_mem h
  have hent := (firstPass_good ps items).2 (k, e) hke
  obtain ⟨hbS, hbcl⟩ := hent.1 b hb
  exact ⟨b, hbS, (classify_base hbcl).1, hbcl, e.variants, rfl,
    fun v hv => hent.2 v hv⟩

/-- Every variant binding anywhere in the output comes from an input
item classifying as a variant under exactly the enclosing node's key. -/
theorem groupCore_variant_from {ps : List String} {items : List MEItem}
    {k : String} {n : OreNode} {vv : String × OreVariantRec}
    (h : (k, n) ∈ groupCore ps items) (hv : vv ∈ n.variants) :
    ∃ v ∈ items, vv.1 = v.name ∧ vv.2 = mkVariantRec v ∧
      classifyItem ps v = (k, false) := by
  obtain ⟨b, hbS, hbname, hbcl, vars, rfl, hvars⟩ := groupCore_base_from h
  rw [mkOreNode_variants] at hv
  rcases dfold_mem hv with h0 | h0
  · simp at h0
  · obtain ⟨v, hvmem, hveq⟩ := List.mem_map.1 h0
    have hvin : v ∈ vars := (sortBy_perm _ _).mem_iff.1 hvmem
    obtain ⟨hvS, hvcl⟩ := hvars v hvin
    exact ⟨v, hvS, by rw [← hveq], by rw [← hveq], hvcl⟩

/-- Canonical shape: keys strictly sorted; each node's `name` equals its
key and strips to `none`; each node's variant map strictly sorted by
key, with each variant's `name` equal to its key, stripping to the
node's key. -/
def canonical (ps : List String) (out : List (String × OreNode)) : Prop :=
  (out.map Prod.fst).Pairwise (· < ·) ∧
  ∀ kn ∈ out, kn.2.name = kn.1 ∧ stripName ps kn.1 = none ∧
    (kn.2.variants.map Prod.fst).Pairwise (· < ·) ∧
    ∀ vv ∈ kn.2.variants, vv.2.name = vv.1 ∧ stripName ps vv.1 = some kn.1

theorem canonical_groupCore (ps : List String) (items : List MEItem) :
    canonical ps (groupCore ps items) := by
  refine ⟨groupCore_keys_sorted ps items, ?_⟩
  intro kn hkn
  obtain ⟨k, n⟩ := kn
  obtain ⟨b, hbS, hbname, hbcl, vars, rfl, hvars⟩ := groupCore_base_from hkn
  refine ⟨hbname, ?_, ?_, ?_⟩
  · rw [← hbname]
    exact (classify_base hbcl).2
  · rw [mkOreNode_variants]
    refine dfold_keys_pairwise (by simp) ?_ (by simp)
    rw [List.map_map]
    refine List.pairwise_map.2 ?_
    exact (sortBy_rel_pairwise MEItem.name _
      (fun a b => strLtB_iff _ _) vars).imp (fun h => h)
  · intro vv hvv
    obtain ⟨v, hvS, h1, h2, hvcl⟩ := groupCore_variant_from hkn hvv
    refine ⟨?_, ?_⟩
    · rw [h2, h1]
      rfl
    · rw [h1]
      exact classify_var hvcl

/-! ## Re-running the canonicalizer on its flattened output -/

/-- The base MEItem reconstructed from a node's top-level fields (what
the flattened list contains for the base). -/
def baseItemOf (n : OreNode) : MEItem :=
  ⟨n.typeID, n.name, n.volume, n.group, n.refined_output⟩

/-- The variant MEItems reconstructed from a node's variant bindings,
with `group` filled by `g0`. -/
def varItemsOf (g0 : String) (n : OreNode) : List MEItem :=
  n.variants.map (fun kv =>
    ⟨kv.2.typeID, kv.2.name, kv.2.volume, g0, kv.2.refined_output⟩)

theorem fp_vars (ps : List String) {k : String} (vs : List MEItem)
    (hvs : ∀ v ∈ vs, classifyItem ps v = (k, false))
    {acc : List (String × BVEntry)} (hk : k ∉ acc.map Prod.fst) (e : BVEntry) :
    vs.foldl (fpStep ps) (acc ++ [(k, e)]) =
      acc ++ [(k, ⟨e.base, e.variants ++ vs⟩)] := by
  induction vs generalizing e with
  | nil =>
    rw [List.foldl_nil]
    cases e
    simp
  | cons v rest ih =>
    rw [List.foldl_cons]
    have hv := hvs v (List.mem_cons_self _ _)
    have hstep : fpStep ps (acc ++ [(k, e)]) v = acc ++ [(k, bvUpd false v e)] := by
      simp only [fpStep, hv]
      exact bvAdd_last e v hk
    rw [hstep, ih (fun v' hv' => hvs v' (List.mem_cons_of_mem _ hv')) (bvUpd false v e)]
    simp [bvUpd]

theorem fp_block (ps : List String) (g0 k : String) (n : OreNode)
    {acc : List (String × BVEntry)} (hk : k ∉ acc.map Prod.fst)
    (hname : n.name = k) (hstrip : stripName ps k = none)
    (hvars : ∀ vv ∈ n.variants, vv.2.name = vv.1 ∧ stripName ps vv.1 = some k) :
    (flattenNode g0 (k, n)).foldl (fpStep ps) acc =
      acc ++ [(k, ⟨some (baseItemOf n), varItemsOf g0 n⟩)] := by
  have hbn : (baseItemOf n).name = k := hname
  have hbase_cl : classifyItem ps (baseItemOf n) = (k, true) := by
    rw [classify_of_strip_none (by rw [hbn]; exact hstrip), hbn]
  have hvar_cl : ∀ v ∈ varItemsOf g0 n, classifyItem ps v = (k, false) := by
    intro v hv
    obtain ⟨kv, hkv, hveq⟩ := List.mem_map.1 hv
    apply classify_of_strip
    have h1 := (hvars kv hkv).1
    have h2 := (hvars kv hkv).2
    rw [← hveq]
    show stripName ps kv.2.name = some k
    rw [h1]
    exact h2
  show (baseItemOf n :: varItemsOf g0 n).foldl (fpStep ps) acc = _
  rw [List.foldl_cons]
  have hstep : fpStep ps acc (baseItemOf n) =
      acc ++ [(k, bvInit true (baseItemOf n))] := by
    simp only [fpStep, hbase_cl]
    exact bvAdd_fresh true _ hk
  rw [hstep, fp_vars ps (varItemsOf g0 n) hvar_cl hk (bvInit true (baseItemOf n))]
  simp [bvInit]

theorem fp_flatten (ps : List String) (g0 : String) :
    ∀ (M : List (String × OreNode)),
      (∀ kn ∈ M, kn.2.name = kn.1 ∧ stripName ps kn.1 = none ∧
        ∀ vv ∈ kn.2.variants, vv.2.name = vv.1 ∧ stripName ps vv.1 = some kn.1) →
      (M.map Prod.fst).Nodup →
      ∀ acc : List (String × BVEntry), (∀ kn ∈ M, kn.1 ∉ acc.map Prod.fst) →
      (flattenOut g0 M).foldl (fpStep ps) acc =
        acc ++ M.map (fun kn =>
          (kn.1, (⟨some (baseItemOf kn.2), varItemsOf g0 kn.2⟩ : BVEntry))) := by
  intro M
  induction M with
  | nil =>
    intro _ _ acc _
    simp [flattenOut]
  | cons kn rest ih =>
    intro hM hnd acc hacc
    obtain ⟨k, n⟩ := kn
    have hsplit : flattenOut g0 ((k, n) :: rest) =
        flattenNode g0 (k, n) ++ flattenOut g0 rest := by
      simp [flattenOut]
    rw [hsplit, List.foldl_append]
    obtain ⟨hname, hstrip, hvars⟩ := hM (k, n) (List.mem_cons_self _ _)
    rw [fp_block ps g0 k n (hacc (k, n) (List.mem_cons_self _ _)) hname hstrip hvars]
    simp only [List.map_cons, List.nodup_cons] at hnd
    have hfresh : ∀ kn' ∈ rest,
        kn'.1 ∉ (acc ++ [(k, (⟨some (baseItemOf n), varItemsOf g0 n⟩ : BVEntry))]).map
          Prod.fst := by
      intro kn' hkn'
      simp only [List.map_append, List.mem_append, List.map_cons, List.map_nil,
        List.mem_singleton]
      push_neg
      refine ⟨hacc kn' (List.mem_cons_of_mem _ hkn'), ?_⟩
      intro hh
      exact hnd.1 (hh ▸ List.mem_map_of_mem Prod.fst hkn')
    rw [ih (fun x hx => hM x (List.mem_cons_of_mem _ hx)) hnd.2 _ hfresh]
    simp

theorem mkOreNode_recon (g0 : String) (n : OreNode)
    (hvar : ∀ vv ∈ n.variants, vv.2.name = vv.1)
    (hsorted : (n.variants.map Prod.fst).Pairwise (· < ·)) :
    mkOreNode (baseItemOf n) (varItemsOf g0 n) = n := by
  have hnames : (varItemsOf g0 n).map MEItem.name = n.variants.map Prod.fst := by
    unfold varItemsOf
    rw [List.map_map]
    exact List.map_congr_left (fun kv hkv => hvar kv hkv)
  have h2 : ((varItemsOf g0 n).map MEItem.name).Pairwise (· < ·) := by
    rw [hnames]
    exact hsorted
  have hvsorted : (varItemsOf g0 n).Pairwise (fun a b => ¬ b.name < a.name) :=
    (List.pairwise_map.1 h2).imp (fun h => not_lt.2 (le_of_lt h))
  have hid : sortBy (fun x y => strLtB x.name y.name) (varItemsOf g0 n) =
      varItemsOf g0 n :=
    sortBy_rel_id MEItem.name _ (fun a b => strLtB_iff _ _) hvsorted
  have hpairs : (varItemsOf g0 n).map (fun v => (v.name, mkVariantRec v)) =
      n.variants := by
    unfold varItemsOf
    rw [List.map_map]
    have hcong : ∀ kv ∈ n.variants,
        ((fun v : MEItem => (v.name, mkVariantRec v)) ∘ (fun kv : String × OreVariantRec =>
          (⟨kv.2.typeID, kv.2.name, kv.2.volume, g0, kv.2.refined_output⟩ : MEItem))) kv
          = kv := by
      intro kv hkv
      have h1 := hvar kv hkv
      obtain ⟨k1, v1⟩ := kv
      obtain ⟨a, b, c, d⟩ := v1
      simp only at h1
      simp [mkVariantRec, h1]
    rw [List.map_congr_left hcong]
    simp
  have hndkeys : ((n.variants).map Prod.fst).Nodup := hsorted.imp (fun h => ne_of_lt h)
  have hv2 : (mkOreNode (baseItemOf n) (varItemsOf g0 n)).variants = n.variants := by
    rw [mkOreNode_variants, hid, hpairs,
      dfold_fresh_nodup (by simp) hndkeys, List.nil_append]
  have hfields : ∀ m : OreNode, m.typeID = n.typeID → m.name = n.name →
      m.volume = n.volume → m.group = n.group →
      m.refined_output = n.refined_output → m.variants = n.variants → m = n := by
    intro m h1 h2 h3 h4 h5 h6
    cases m
    cases n
    simp_all
  exact hfields _ rfl rfl rfl rfl rfl hv2

theorem sp_map_recon (g0 : String) :
    ∀ (M : List (String × OreNode)),
      (∀ kn ∈ M, (∀ vv ∈ kn.2.variants, vv.2.name = vv.1) ∧
        (kn.2.variants.map Prod.fst).Pairwise (· < ·)) →
      (M.map (fun kn =>
        (kn.1, (⟨some (baseItemOf kn.2), varItemsOf g0 kn.2⟩ : BVEntry)))).filterMap
          (fun ke => ke.2.base.map (fun b => (ke.1, mkOreNode b ke.2.variants))) = M := by
  intro M
  induction M with
  | nil =>
    intro _
    rfl
  | cons kn rest ih =>
    intro h
    rw [List.map_cons, List.filterMap_cons]
    simp only [Option.map_some']
    rw [mkOreNode_recon g0 kn.2 (h kn (List.mem_cons_self _ _)).1
      (h kn (List.mem_cons_self _ _)).2]
    rw [ih (fun x hx => h x (List.mem_cons_of_mem _ hx))]

theorem groupCore_flatten (ps : List String) (g0 : String)
    (M : List (String × OreNode)) (hc : canonical ps M) :
    groupCore ps (flattenOut g0 M) = M := by
  obtain ⟨hsort, hcond⟩ := hc
  have hnd : (M.map Prod.fst).Nodup := hsort.imp (fun h => ne_of_lt h)
  have h1 : firstPass ps (flattenOut g0 M) =
      M.map (fun kn =>
        (kn.1, (⟨some (baseItemOf kn.2), varItemsOf g0 kn.2⟩ : BVEntry))) := by
    have := fp_flatten ps g0 M
      (fun kn hkn => ⟨(hcond kn hkn).1, (hcond kn hkn).2.1,
        fun vv hvv => (hcond kn hkn).2.2.2 vv hvv⟩) hnd [] (by simp)
    simpa [firstPass] using this
  have h2 : secondPass (firstPass ps (flattenOut g0 M)) = M := by
    rw [h1, secondPass_eq]
    exact sp_map_recon g0 M (fun kn hkn =>
      ⟨fun vv hvv => ((hcond kn hkn).2.2.2 vv hvv).1, (hcond kn hkn).2.2.1⟩)
  show sortBy _ (secondPass (firstPass ps (flattenOut g0 M))) = M
  rw [h2]
  refine sortBy_rel_id Prod.fst _ (fun a b => strLtB_iff _ _) ?_
  exact (List.pairwise_map.1 hsort).imp (fun h => not_lt.2 (le_of_lt h))

/-! ## Example items (the spec's Veldspar family) -/

def veldsparEx : MEItem := ⟨1230, "Veldspar", 1, "Veldspar", [(34, 415)]⟩

def concVeldsparEx : MEItem :=
  ⟨17470, "Concentrated Veldspar", 1, "Veldspar", [(34, 437)]⟩

def denseVeldsparEx : MEItem :=
  ⟨17471, "Dense Veldspar", 1, "Veldspar", [(34, 460)]⟩

/-- The node the canonicalizer must produce for the Veldspar family. -/
def veldsparNodeEx : OreNode :=
  { typeID := 1230, name := "Veldspar", volume := 1, group := "Veldspar",
    refined_output := [(34, 415)],
    variants :=
      [("Concentrated Veldspar", ⟨17470, "Concentrated Veldspar", 1, [(34, 437)]⟩),
       ("Dense Veldspar", ⟨17471, "Dense Veldspar", 1, [(34, 460)]⟩)] }

/-! ## Claim theorems for the canonicalizer -/

/-- C6: every entry's lower-cased name is tested against the category's
prefix list in order, and the first matching prefix determines the
stripped base name (`stripName` is exactly that first-match rule, and
every variant binding in the output arises from it); an entry matching
no prefix is itself the base.  In particular "Veldspar",
"Concentrated Veldspar", "Dense Veldspar" with prefixes
`["concentrated ", "dense "]` produce one base node "Veldspar" with the
two variant keys nested in alphabetical order. -/
theorem canonicalizer_first_match_and_veldspar_example :
    (groupCore ["concentrated ", "dense "]
      [veldsparEx, concVeldsparEx, denseVeldsparEx] =
        [("Veldspar", veldsparNodeEx)]) ∧
    ∀ (ps : List String) (items : List MEItem) (kn : String × OreNode),
      kn ∈ groupCore ps items →
      (kn.2.name = kn.1 ∧ stripName ps kn.1 = none) ∧
      ∀ vv ∈ kn.2.variants, ∃ v ∈ items, vv.1 = v.name ∧
        stripName ps v.name = some kn.1 := by
  constructor
  · decide
  · intro ps items kn hkn
    obtain ⟨k, n⟩ := kn
    have hc := (canonical_groupCore ps items).2 (k, n) hkn
    refine ⟨⟨hc.1, hc.2.1⟩, ?_⟩
    intro vv hvv
    obtain ⟨v, hvS, h1, _h2, hcl⟩ := groupCore_variant_from hkn hvv
    exact ⟨v, hvS, h1, classify_var hcl⟩

theorem canonicalizer_first_match_and_veldspar_example_witness :
    (("Veldspar", veldsparNodeEx) ∈ groupCore ["concentrated ", "dense "]
      [veldsparEx, concVeldsparEx, denseVeldsparEx]) ∧
    ((veldsparNodeEx.name = "Veldspar" ∧
      stripName ["concentrated ", "dense "] "Veldspar" = none) ∧
     ∀ vv ∈ veldsparNodeEx.variants,
       ∃ v ∈ [veldsparEx, concVeldsparEx, denseVeldsparEx], vv.1 = v.name ∧
         stripName ["concentrated ", "dense "] v.name = some "Veldspar") :=
  ⟨by decide,
   canonicalizer_first_match_and_veldspar_example.2
     ["concentrated ", "dense "] [veldsparEx, concVeldsparEx, denseVeldsparEx]
     ("Veldspar", veldsparNodeEx) (by decide)⟩

/-- C7: a base-name group containing only variants and no base entry is
dropped entirely: its base name is not a key of the output, and no
variant of that group appears anywhere — neither as a top-level key nor
as a nested variant key of any node. -/
theorem orphan_variant_group_dropped (items : List MEItem)
    (item_type : String) (b : String)
    (hnb : ∀ j ∈ items, classifyItem (prefixesFor item_type) j ≠ (b, true)) :
    b ∉ (group_ore_subtypes items item_type).map Prod.fst ∧
    ∀ i ∈ items, stripName (prefixesFor item_type) i.name = some b →
      ∀ kn ∈ group_ore_subtypes items item_type,
        kn.1 ≠ i.name ∧ ∀ vv ∈ kn.2.variants, vv.1 ≠ i.name := by
  have hkey : b ∉ (group_ore_subtypes items item_type).map Prod.fst := by
    intro hb
    obtain ⟨kn, hmem, hfst⟩ := List.mem_map.1 hb
    obtain ⟨k, n⟩ := kn
    obtain ⟨j, hjS, _hjname, hjcl, _⟩ := groupCore_base_from hmem
    exact hnb j hjS (by rw [hjcl]; rw [show (k, n).1 = k from rfl] at hfst; rw [hfst])
  refine ⟨hkey, ?_⟩
  intro i hi hstrip kn hkn
  obtain ⟨k, n⟩ := kn
  obtain ⟨j, hjS, hjname, hjcl, _⟩ := groupCore_base_from hkn
  constructor
  · intro hk
    have hjstrip := (classify_base hjcl).2
    rw [hjname] at hjstrip
    rw [show (k, n).1 = k from rfl] at hk
    rw [hk] at hjstrip
    rw [hstrip] at hjstrip
    cases hjstrip
  · intro vv hvv hvname
    obtain ⟨v, _hvS, h1, _h2, hvcl⟩ := groupCore_variant_from hkn hvv
    have hvstrip := classify_var hvcl
    rw [h1] at hvname
    rw [hvname, hstrip] at hvstrip
    have hkb : k = b := by
      have := Option.some.inj hvstrip
      exact this.symm
    apply hkey
    rw [← hkb]
    exact List.mem_map_of_mem Prod.fst hkn

theorem orphan_variant_group_dropped_witness :
    (∀ j ∈ [concVeldsparEx],
      classifyItem (prefixesFor "ore") j ≠ ("Veldspar", true)) ∧
    ("Veldspar" ∉ (group_ore_subtypes [concVeldsparEx] "ore").map Prod.fst ∧
     ∀ i ∈ [concVeldsparEx],
       stripName (prefixesFor "ore") i.name = some "Veldspar" →
       ∀ kn ∈ group_ore_subtypes [concVeldsparEx] "ore",
         kn.1 ≠ i.name ∧ ∀ vv ∈ kn.2.variants, vv.1 ≠ i.name) :=
  ⟨by decide, orphan_variant_group_dropped [concVeldsparEx] "ore" "Veldspar"
    (by decide)⟩

/-- C8: the canonicalizer is idempotent — flattening its output (each
base record followed by its nested variant records, the `group` field of
a flattened variant being immaterial) and re-running it with the same
category prefix list reproduces the same base/variant grouping. -/
theorem canonicalizer_idempotent (items : List MEItem)
    (item_type g0 : String) :
    group_ore_subtypes (flattenOut g0 (group_ore_subtypes items item_type))
      item_type = group_ore_subtypes items item_type :=
  groupCore_flatten (prefixesFor item_type) g0 _
    (canonical_groupCore (prefixesFor item_type) items)

/-- C10: in every mapping the canonicalizer returns, each top-level key
equals the `name` field of its base node, and each nested variant key
equals the `name` field of that variant's record. -/
theorem canonicalizer_keys_equal_names (items : List MEItem)
    (item_type : String) (k : String) (n : OreNode)
    (h : (k, n) ∈ group_ore_subtypes items item_type) :
    n.name = k ∧ ∀ vk vr, (vk, vr) ∈ n.variants → vr.name = vk := by
  have hc := (canonical_groupCore (prefixesFor item_type) items).2 (k, n) h
  exact ⟨hc.1, fun vk vr hv => (hc.2.2.2 (vk, vr) hv).1⟩

theorem canonicalizer_keys_equal_names_witness :
    (("Veldspar", veldsparNodeEx) ∈
      group_ore_subtypes [veldsparEx, concVeldsparEx, denseVeldsparEx] "ore") ∧
    (veldsparNodeEx.name = "Veldspar" ∧
     ∀ vk vr, (vk, vr) ∈ veldsparNodeEx.variants → vr.name = vk) :=
  ⟨by decide,
   canonicalizer_keys_equal_names [veldsparEx, concVeldsparEx, denseVeldsparEx]
     "ore" "Veldspar" veldsparNodeEx (by decide)⟩

/-! ## Mineable item classification (`extract_ores_ice_and_moon_ores`)

The per-type loop: skip unpublished types, then the priority `if/elif`
chain moon ore → ore → ice → mineral → gas appends the entry to at most
one of the five lists. -/

/-- One record of `types.yaml` (`Option` fields model `dict.get`). -/
structure TypeData where
  published : Option Bool
  groupID : Option Int
  marketGroupID : Option Int
  iconID : Option Int
  name_en : Option String
  volume : Option Rat
  mass : Option Rat
deriving DecidableEq, Repr

/-- One record of `groups.yaml`. -/
structure GroupData where
  categoryID : Option Int
  name_en : Option String
deriving DecidableEq, Repr

def ASTEROID_CATEGORY_ID : Int := 25
def ICE_CATEGORY_ID : Int := 87
def GAS_CATEGORY_ID : Int := 49
def MOON_ORE_GROUP_IDS : List Int := [1920, 1921, 1922, 1923]
def COMPRESSED_KEYWORDS : List String := ["compressed", "compact"]

/-- `is_compressed_ore`: any compressed keyword occurs in the lowered
name. -/
def is_compressed_ore (name : String) : Bool :=
  COMPRESSED_KEYWORDS.any (fun kw => containsSub kw (lowerStr name))

/-- Membership in the set of all `materialTypeID`s occurring in
`typeMaterials` (the set built by
`extract_all_refined_type_ids_and_items`; the Python set is modelled by
its membership predicate). -/
def isRefinedTypeId (materials : List (Int × List (Int × Int)))
    (tid : Int) : Bool :=
  materials.any (fun e => e.2.any (fun m => m.1 == tid))

/-- `ore_groups`: group ids whose `categoryID` is the asteroid
category. -/
def ore_groups (groups : List (Int × GroupData)) : List Int :=
  (groups.filter (fun g => g.2.categoryID == some ASTEROID_CATEGORY_ID)).map
    Prod.fst

/-- `ice_groups`: group ids in the ice category whose lowered English
name contains "ice". -/
def ice_groups (groups : List (Int × GroupData)) : List Int :=
  (groups.filter (fun g => g.2.categoryID == some ICE_CATEGORY_ID &&
    containsSub "ice" (lowerStr (g.2.name_en.getD "")))).map Prod.fst

/-- `gas_groups`: group ids in the gas category. -/
def gas_groups (groups : List (Int × GroupData)) : List Int :=
  (groups.filter (fun g => g.2.categoryID == some GAS_CATEGORY_ID)).map
    Prod.fst

/-- `groups.get(group_id, {}).get("name", {}).get("en", "Unknown")`. -/
def groupNameOf (groups : List (Int × GroupData)) (gid : Option Int) :
    String :=
  match gid with
  | none => "Unknown"
  | some g =>
    match groups.lookup g with
    | none => "Unknown"
    | some gd => gd.name_en.getD "Unknown"

/-- `type_materials.get(type_id, {}).get("materials", [])` as
`(materialTypeID, quantity)` pairs. -/
def refinedOf (materials : List (Int × List (Int × Int))) (tid : Int) :
    List (Int × Int) :=
  (materials.lookup tid).getD []

/-- The `entry` dict built for one type. -/
def mkMineEntry (groups : List (Int × GroupData))
    (materials : List (Int × List (Int × Int))) (tid : Int) (td : TypeData) :
    MEItem :=
  { typeID := tid, name := td.name_en.getD "", volume := td.volume.getD 1,
    group := groupNameOf groups td.groupID,
    refined_output := refinedOf materials tid }

inductive MineCat where
  | moon_ore | ore | ice | mineral | gas
deriving DecidableEq, Repr

/-- Python `group_id in s` (a `None` id is in no set). -/
def optMem (g : Option Int) (s : List Int) : Bool :=
  match g with
  | some x => s.contains x
  | none => false

/-- The `if/elif` categorization chain of the per-type loop, applied
after the published check; `none` means the type matches no category and
is silently excluded. -/
def categorize (groups : List (Int × GroupData))
    (materials : List (Int × List (Int × Int))) (tid : Int) (td : TypeData) :
    Option MineCat :=
  let name := td.name_en.getD ""
  let gid := td.groupID
  if optMem gid MOON_ORE_GROUP_IDS && !is_compressed_ore name then
    some .moon_ore
  else if optMem gid (ore_groups groups) && !is_compressed_ore name then
    some .ore
  else if optMem gid (ice_groups groups) && !is_compressed_ore name then
    some .ice
  else if isRefinedTypeId materials tid then some .mineral
  else if optMem gid (gas_groups groups) then some .gas
  else none

/-- The five output collections `ores, ice_items, moon_ores, minerals,
gas_clouds`. -/
structure CatLists where
  ores : List MEItem
  ice_items : List MEItem
  moon_ores : List MEItem
  minerals : List MEItem
  gas_clouds : List MEItem
deriving DecidableEq, Repr

/-- One iteration of the per-type loop. -/
def catStep (groups : List (Int × GroupData))
    (materials : List (Int × List (Int × Int))) (acc : CatLists)
    (p : Int × TypeData) : CatLists :=
  if p.2.published.getD false = false then acc
  else
    let entry := mkMineEntry groups materials p.1 p.2
    match categorize groups materials p.1 p.2 with
    | some .moon_ore => {acc with moon_ores := acc.moon_ores ++ [entry]}
    | some .ore => {acc with ores := acc.ores ++ [entry]}
    | some .ice => {acc with ice_items := acc.ice_items ++ [entry]}
    | some .mineral => {acc with minerals := acc.minerals ++ [entry]}
    | some .gas => {acc with gas_clouds := acc.gas_clouds ++ [entry]}
    | none => acc

/-- The categorization loop of `extract_ores_ice_and_moon_ores` over
`types.items()`. -/
def extract_mineable (groups : List (Int × GroupData))
    (materials : List (Int × List (Int × Int)))
    (types : List (Int × TypeData)) : CatLists :=
  types.foldl (catStep groups materials) ⟨[], [], [], [], []⟩

/-- Spec-side view: the published types assigned to category `c`, in
input order, as entries. -/
def catFilter (groups : List (Int × GroupData))
    (materials : List (Int × List (Int × Int))) (c : MineCat)
    (types : List (Int × TypeData)) : List MEItem :=
  (types.filter (fun p => p.2.published.getD false &&
    (categorize groups materials p.1 p.2 == some c))).map
    (fun p => mkMineEntry groups materials p.1 p.2)

/-- Projection of the five lists by category. -/
def catOf (r : CatLists) : MineCat → List MEItem
  | .ore => r.ores
  | .ice => r.ice_items
  | .moon_ore => r.moon_ores
  | .mineral => r.minerals
  | .gas => r.gas_clouds

theorem extract_mineable_aux (groups : List (Int × GroupData))
    (materials : List (Int × List (Int × Int))) :
    ∀ (types : List (Int × TypeData)) (acc : CatLists),
      types.foldl (catStep groups materials) acc =
        ⟨acc.ores ++ catFilter groups materials .ore types,
         acc.ice_items ++ catFilter groups materials .ice types,
         acc.moon_ores ++ catFilter groups materials .moon_ore types,
         acc.minerals ++ catFilter groups materials .mineral types,
         acc.gas_clouds ++ catFilter groups materials .gas types⟩ := by
  intro types
  induction types with
  | nil =>
    intro acc
    simp [catFilter]
  | cons p rest ih =>
    intro acc
    rw [List.foldl_cons]
    by_cases hpub : p.2.published.getD false = false
    · have hstep : catStep groups materials acc p = acc := by
        simp [catStep, hpub]
      rw [hstep, ih acc]
      simp [catFilter, List.filter_cons, hpub]
    · have hpub' : p.2.published.getD false = true := by
        cases h : p.2.published.getD false
        · exact absurd h hpub
        · rfl
      cases hcat : categorize groups materials p.1 p.2 with
      | none =>
        have hstep : catStep groups materials acc p = acc := by
          simp [catStep, hpub', hcat]
        rw [hstep, ih acc]
        simp [catFilter, List.filter_cons, hpub', hcat]
      | some c =>
        cases c with
        | moon_ore =>
          have hstep : catStep groups materials acc p = {acc with
              moon_ores := acc.moon_ores ++
                [mkMineEntry groups materials p.1 p.2]} := by
            simp [catStep, hpub', hcat]
          rw [hstep, ih]
          simp [catFilter, List.filter_cons, hpub', hcat, List.append_assoc]
        | ore =>
          have hstep : catStep groups materials acc p = {acc with
              ores := acc.ores ++ [mkMineEntry groups materials p.1 p.2]} := by
            simp [catStep, hpub', hcat]
          rw [hstep, ih]
          simp [catFilter, List.filter_cons, hpub', hcat, List.append_assoc]
        | ice =>
          have hstep : catStep groups materials acc p = {acc with
              ice_items := acc.ice_items ++
                [mkMineEntry groups materials p.1 p.2]} := by
            simp [catStep, hpub', hcat]
          rw [hstep, ih]
          simp [catFilter, List.filter_cons, hpub', hcat, List.append_assoc]
        | mineral =>
          have hstep : catStep groups materials acc p = {acc with
              minerals := acc.minerals ++
                [mkMineEntry groups materials p.1 p.2]} := by
            simp [catStep, hpub', hcat]
          rw [hstep, ih]
          simp [catFilter, List.filter_cons, hpub', hcat, List.append_assoc]
        | gas =>
          have hstep : catStep groups materials acc p = {acc with
              gas_clouds := acc.gas_clouds ++
                [mkMineEntry groups materials p.1 p.2]} := by
            simp [catStep, hpub', hcat]
          rw [hstep, ih]
          simp [catFilter, List.filter_cons, hpub', hcat, List.append_assoc]

theorem extract_mineable_catOf (groups : List (Int × GroupData))
    (materials : List (Int × List (Int × Int)))
    (types : List (Int × TypeData)) (c : MineCat) :
    catOf (extract_mineable groups materials types) c =
      catFilter groups materials c types := by
  have h := extract_mineable_aux groups materials types ⟨[], [], [], [], []⟩
  cases c <;> simp [extract_mineable, h, catOf]

theorem catFilter_mem {groups : List (Int × GroupData)}
    {materials : List (Int × List (Int × Int))}
    {types : List (Int × TypeData)} {c : MineCat} {e : MEItem} :
    e ∈ catFilter groups materials c types ↔
      ∃ p ∈ types, p.2.published.getD false = true ∧
        categorize groups materials p.1 p.2 = some c ∧
        e = mkMineEntry groups materials p.1 p.2 := by
  simp only [catFilter, List.mem_map, List.mem_filter, Bool.and_eq_true,
    beq_iff_eq]
  constructor
  · rintro ⟨p, ⟨hp, hpub, hcat⟩, he⟩
    exact ⟨p, hp, hpub, hcat, he.symm⟩
  · rintro ⟨p, hp, hpub, hcat, he⟩
    exact ⟨p, ⟨hp, hpub, hcat⟩, he.symm⟩

theorem catFilter_disjoint (groups : List (Int × GroupData))
    (materials : List (Int × List (Int × Int)))
    (types : List (Int × TypeData)) (hnd : (types.map Prod.fst).Nodup)
    {c1 c2 : MineCat} (hne : c1 ≠ c2) :
    List.Disjoint (catFilter groups materials c1 types)
      (catFilter groups materials c2 types) := by
  intro e he1 he2
  obtain ⟨p1, hp1, _hpub1, hcat1, he1'⟩ := catFilter_mem.1 he1
  obtain ⟨p2, hp2, _hpub2, hcat2, he2'⟩ := catFilter_mem.1 he2
  have hid : p1.1 = p2.1 := by
    have h := he1'.symm.trans he2'
    have := congrArg MEItem.typeID h
    simpa [mkMineEntry] using this
  have hp12 : p1 = p2 := List.inj_on_of_nodup_map hnd hp1 hp2 hid
  rw [hp12, hcat2] at hcat1
  exact hne (Option.some.inj hcat1).symm

/-! ## Claim theorems for the mineable classification (C5) -/

/-- A published type whose name contains "compressed", sitting in an
asteroid-category group, and whose typeID occurs as a reprocessing
material. -/
def compGroupsEx : List (Int × GroupData) := [(450, ⟨some 25, some "Veldspar"⟩)]

def compMaterialsEx : List (Int × List (Int × Int)) := [(999, [(34, 1)])]

def compTypesEx : List (Int × TypeData) :=
  [(34, ⟨some true, some 450, none, none, some "Compressed Veldspar", some 1,
    none⟩)]

/-- C5 counterexample: the claim says the union of the five output lists
equals the input minus the compressed/compact-named exclusions, but a
published compressed-named item in an ore group whose typeID is a
reprocessing material lands in `minerals`: the union contains a
compressed-named item, so compressed-named items are not globally
excluded. -/
theorem compressed_item_classified_as_mineral :
    (extract_mineable compGroupsEx compMaterialsEx compTypesEx).minerals =
      [⟨34, "Compressed Veldspar", 1, "Veldspar", []⟩] ∧
    (extract_mineable compGroupsEx compMaterialsEx compTypesEx).ores = [] ∧
    is_compressed_ore "Compressed Veldspar" = true := by
  decide

/-- C5 amended: categorization is the priority chain moon ore → ore →
ice → mineral → gas applied to each published record, assigning it to at
most one list; the five lists are exactly the published records the
chain assigns to each category; their union is exactly the published
records the chain classifies at all (the compressed-name filter only
guards the moon ore / ore / ice branches, so a compressed-named record
can still be a mineral or gas); and for inputs with distinct typeIDs the
five lists are pairwise disjoint. -/
theorem mineable_partition (groups : List (Int × GroupData))
    (materials : List (Int × List (Int × Int)))
    (types : List (Int × TypeData)) :
    (∀ c, catOf (extract_mineable groups materials types) c =
      catFilter groups materials c types) ∧
    (∀ e : MEItem,
      (∃ c, e ∈ catOf (extract_mineable groups materials types) c) ↔
      ∃ p ∈ types, p.2.published.getD false = true ∧
        (categorize groups materials p.1 p.2).isSome ∧
        e = mkMineEntry groups materials p.1 p.2) ∧
    ((types.map Prod.fst).Nodup → ∀ c1 c2, c1 ≠ c2 →
      List.Disjoint (catOf (extract_mineable groups materials types) c1)
        (catOf (extract_mineable groups materials types) c2)) := by
  refine ⟨extract_mineable_catOf groups materials types, ?_, ?_⟩
  · intro e
    constructor
    · rintro ⟨c, hc⟩
      rw [extract_mineable_catOf] at hc
      obtain ⟨p, hp, hpub, hcat, he⟩ := catFilter_mem.1 hc
      exact ⟨p, hp, hpub, by rw [hcat]; rfl, he⟩
    · rintro ⟨p, hp, hpub, hsome, he⟩
      obtain ⟨c, hc⟩ := Option.isSome_iff_exists.1 hsome
      refine ⟨c, ?_⟩
      rw [extract_mineable_catOf]
      exact catFilter_mem.2 ⟨p, hp, hpub, hc, he⟩
  · intro hnd c1 c2 hne
    rw [extract_mineable_catOf, extract_mineable_catOf]
    exact catFilter_disjoint groups materials types hnd hne

theorem mineable_partition_witness :
    ((compTypesEx.map Prod.fst).Nodup) ∧
    (∀ c1 c2, c1 ≠ c2 →
      List.Disjoint
        (catOf (extract_mineable compGroupsEx compMaterialsEx compTypesEx) c1)
        (catOf (extract_mineable compGroupsEx compMaterialsEx compTypesEx) c2)) :=
  ⟨by decide,
   (mineable_partition compGroupsEx compMaterialsEx compTypesEx).2.2 (by decide)⟩

/-! ## Geographic Hierarchy Correlator (`extract_locations`)

Stations arrive as the items of the dict built by `extract_stations`
(keyed by the string station id).  The universe is the externally
enumerated directory hierarchy: region directories (those containing a
`region.yaml`), their constellation sub-directories (with an optional
`constellation.yaml`), and system sub-directories (with an optional
`solarsystem.yaml`); missing declaration files skip only that node.
All functions are total: no input can make the run fail. -/

def PLEX_REGION_ID : Int := 19000001

/-- One raw station record (the fields the correlator reads; the whole
record is copied into the output). -/
structure StationData where
  stationID : Option Int
  stationName : Option String
  regionID : Option Int
  constellationID : Option Int
  solarSystemID : Option Int
deriving DecidableEq, Repr

/-- The contents of a `region.yaml` / `constellation.yaml` /
`solarsystem.yaml` that the correlator reads. -/
structure SysData where
  solarSystemID : Option Int
  solarSystemNameID : Option Int
  security : Option Rat
deriving DecidableEq, Repr

structure ConstData where
  constellationID : Option Int
deriving DecidableEq, Repr

/-- A system directory: its name and, if present, its
`solarsystem.yaml`. -/
structure SysDir where
  name : String
  syaml : Option SysData
deriving DecidableEq, Repr

/-- A constellation directory. -/
structure ConstDir where
  name : String
  cyaml : Option ConstData
  systems : List SysDir
deriving DecidableEq, Repr

/-- A region directory (one that contains a `region.yaml`, whose
`regionID` field may still be missing). -/
structure RegionDir where
  name : String
  regionID : Option Int
  consts : List ConstDir
deriving DecidableEq, Repr

/-- Python truthiness of an id retrieved with `.get` (absent or `0` is
falsy). -/
def truthyId : Option Int → Bool
  | some v => v != 0
  | none => false

/-- The first-pass validity check
`all([region_id, constellation_id, system_id])`. -/
def stationValid (s : StationData) : Bool :=
  truthyId s.regionID && truthyId s.constellationID && truthyId s.solarSystemID

/-- `region_id in region_structure` of the first-pass index. -/
def regionHasStations (stations : List (String × StationData)) (r : Int) :
    Bool :=
  stations.any (fun kv => stationValid kv.2 && kv.2.regionID == some r)

/-- `constellation_id in region_structure[region_id]["constellations"]`. -/
def constHasStations (stations : List (String × StationData)) (r c : Int) :
    Bool :=
  stations.any (fun kv => stationValid kv.2 && kv.2.regionID == some r &&
    kv.2.constellationID == some c)

/-- `system_id in ...["systems"]`. -/
def systemHasStations (stations : List (String × StationData))
    (r c s : Int) : Bool :=
  stations.any (fun kv => stationValid kv.2 && kv.2.regionID == some r &&
    kv.2.constellationID == some c && kv.2.solarSystemID == some s)

/-- The first-pass `stations` dict of index entry `(r, c, s)`, in
insertion order. -/
def systemStations (stations : List (String × StationData)) (r c s : Int) :
    List (String × StationData) :=
  dfold [] (stations.filter (fun kv => stationValid kv.2 &&
    kv.2.regionID == some r && kv.2.constellationID == some c &&
    kv.2.solarSystemID == some s))

def regionHasB (stations : List (String × StationData)) (rid : Option Int) :
    Bool :=
  match rid with
  | some r => regionHasStations stations r
  | none => false

def constHasB (stations : List (String × StationData))
    (rid cid : Option Int) : Bool :=
  match rid, cid with
  | some r, some c => constHasStations stations r c
  | _, _ => false

def sysHasB (stations : List (String × StationData))
    (rid cid sid : Option Int) (chas : Bool) : Bool :=
  match rid, cid, sid with
  | some r, some c, some s => chas && systemHasStations stations r c s
  | _, _, _ => false

def sysStationsOf (stations : List (String × StationData))
    (rid cid sid : Option Int) : List (String × StationData) :=
  match rid, cid, sid with
  | some r, some c, some s => systemStations stations r c s
  | _, _, _ => []

/-- The output node for one system. -/
structure SysObj where
  solarSystemID : Option Int
  solarSystemNameID : Option Int
  security : Option Rat
  stations : List (String × StationData)
deriving DecidableEq, Repr

structure ConstObj where
  constellationID : Option Int
  systems : List (String × SysObj)
deriving DecidableEq, Repr

structure RegionObj where
  regionID : Option Int
  constellations : List (String × ConstObj)
deriving DecidableEq, Repr

/-- One conditional dict insert: skip (`continue`) on `none`, else
assign under the element's directory name. -/
def condStep {β α : Type} (key : β → String) (f : β → Option α)
    (acc : List (String × α)) (x : β) : List (String × α) :=
  match f x with
  | none => acc
  | some v => dinsert acc (key x) v

/-- Fold of conditional dict inserts: each element either contributes a
keyed value (`some`) or is skipped (the `continue` branches). -/
def condFold {β α : Type} (key : β → String) (f : β → Option α)
    (l : List β) : List (String × α) :=
  l.foldl (condStep key f) []

/-- The `system_obj` built for one system directory. -/
def buildSysObj (stations : List (String × StationData))
    (rid cid : Option Int) (chas : Bool) (sdata : SysData) : SysObj :=
  { solarSystemID := sdata.solarSystemID,
    solarSystemNameID := sdata.solarSystemNameID,
    security := sdata.security,
    stations := if sysHasB stations rid cid sdata.solarSystemID chas then
      sysStationsOf stations rid cid sdata.solarSystemID else [] }

/-- Per-system-directory step: skip when `solarsystem.yaml` is missing,
skip a station-less system outside the PLEX region, else emit the
system object under the directory name. -/
def sysFn (stations : List (String × StationData)) (isPlex : Bool)
    (rid cid : Option Int) (chas : Bool) (sd : SysDir) : Option SysObj :=
  match sd.syaml with
  | none => none
  | some sdata =>
    if !sysHasB stations rid cid sdata.solarSystemID chas && !isPlex then none
    else some (buildSysObj stations rid cid chas sdata)

/-- The `constellation_obj` built for one constellation directory. -/
def buildConstObj (stations : List (String × StationData)) (isPlex : Bool)
    (rid : Option Int) (chas : Bool) (cdata : ConstData)
    (systems : List SysDir) : ConstObj :=
  { constellationID := cdata.constellationID,
    systems := condFold SysDir.name
      (sysFn stations isPlex rid cdata.constellationID chas) systems }

/-- Per-constellation-directory step: skip when `constellation.yaml` is
missing, skip a station-less constellation outside the PLEX region, and
drop a constellation whose object holds no systems
(`len(constellation_obj) > 1`). -/
def constFn (stations : List (String × StationData)) (isPlex : Bool)
    (rid : Option Int) (cd : ConstDir) : Option ConstObj :=
  match cd.cyaml with
  | none => none
  | some cdata =>
    let chas := constHasB stations rid cdata.constellationID
    if !chas && !isPlex then none
    else
      let cobj := buildConstObj stations isPlex rid chas cdata cd.systems
      if cobj.systems.isEmpty then none else some cobj

/-- The `region_obj` built for one region directory. -/
def buildRegionObj (stations : List (String × StationData)) (isPlex : Bool)
    (rid : Option Int) (consts : List ConstDir) : RegionObj :=
  { regionID := rid,
    constellations := condFold ConstDir.name
      (constFn stations isPlex rid) consts }

/-- Per-region-directory step: include a region iff it has stations or
is the PLEX region; emit it iff it gathered content or is the PLEX
region (`len(region_obj) > 1 or is_plex_region`). -/
def regionFn (stations : List (String × StationData)) (rd : RegionDir) :
    Option RegionObj :=
  let isPlex := rd.regionID == some PLEX_REGION_ID
  if !regionHasB stations rd.regionID && !isPlex then none
  else
    let robj := buildRegionObj stations isPlex rd.regionID rd.consts
    if robj.constellations.isEmpty && !isPlex then none else some robj

/-- `extract_locations`: the `locations` dict keyed by region directory
names. -/
def extract_locations (stations : List (String × StationData))
    (univ : List RegionDir) : List (String × RegionObj) :=
  condFold RegionDir.name (regionFn stations) univ

/-! ## Lemmas about `condFold` and non-emptiness -/

theorem condStep_none {β α : Type} {key : β → String} {f : β → Option α}
    {acc : List (String × α)} {x : β} (h : f x = none) :
    condStep key f acc x = acc := by
  simp [condStep, h]

theorem condStep_some {β α : Type} {key : β → String} {f : β → Option α}
    {acc : List (String × α)} {x : β} {v : α} (h : f x = some v) :
    condStep key f acc x = dinsert acc (key x) v := by
  simp [condStep, h]

theorem condFold_mem {β α : Type} {key : β → String} {f : β → Option α}
    {l : List β} {x : String × α} (hx : x ∈ condFold key f l) :
    ∃ b ∈ l, x.1 = key b ∧ f b = some x.2 := by
  have aux : ∀ (l : List β) (acc : List (String × α)),
      x ∈ l.foldl (condStep key f) acc →
      x ∈ acc ∨ ∃ b ∈ l, x.1 = key b ∧ f b = some x.2 := by
    intro l
    induction l with
    | nil => exact fun acc hx => Or.inl hx
    | cons b rest ih =>
      intro acc hx
      rw [List.foldl_cons] at hx
      cases hfb : f b with
      | none =>
        rw [condStep_none hfb] at hx
        rcases ih _ hx with h | ⟨b', hb', h1, h2⟩
        · exact Or.inl h
        · exact Or.inr ⟨b', List.mem_cons_of_mem _ hb', h1, h2⟩
      | some v =>
        rw [condStep_some hfb] at hx
        rcases ih _ hx with h | ⟨b', hb', h1, h2⟩
        · rcases dinsert_mem h with h' | h'
          · exact Or.inl h'
          · refine Or.inr ⟨b, List.mem_cons_self _ _, ?_, ?_⟩
            · rw [h']
            · rw [h', hfb]
        · exact Or.inr ⟨b', List.mem_cons_of_mem _ hb', h1, h2⟩
  rcases aux l [] hx with h | h
  · cases h
  · exact h

theorem condFold_filterMap {β α : Type} (key : β → String) (f : β → Option α)
    {l : List β} (hnd : (l.map key).Nodup) :
    condFold key f l =
      l.filterMap (fun b => (f b).map (fun v => (key b, v))) := by
  have aux : ∀ (l : List β) (acc : List (String × α)),
      (l.map key).Nodup → (∀ b ∈ l, key b ∉ acc.map Prod.fst) →
      l.foldl (condStep key f) acc =
        acc ++ l.filterMap (fun b => (f b).map (fun v => (key b, v))) := by
    intro l
    induction l with
    | nil =>
      intro acc _ _
      simp
    | cons b rest ih =>
      intro acc hnd hacc
      simp only [List.map_cons, List.nodup_cons] at hnd
      rw [List.foldl_cons, List.filterMap_cons]
      cases hfb : f b with
      | none =>
        rw [condStep_none hfb]
        simp only [Option.map_none']
        exact ih acc hnd.2 (fun b' hb' => hacc b' (List.mem_cons_of_mem _ hb'))
      | some v =>
        rw [condStep_some hfb,
          dinsert_fresh v (hacc b (List.mem_cons_self _ _))]
        simp only [Option.map_some']
        rw [ih (acc ++ [(key b, v)]) hnd.2 ?_, List.append_assoc]
        · rfl
        · intro b' hb'
          simp only [List.map_append, List.mem_append, List.map_cons,
            List.map_nil, List.mem_singleton]
          push_neg
          refine ⟨fun hh => hacc b' (List.mem_cons_of_mem _ hb') hh, ?_⟩
          intro hh
          exact hnd.1 (hh ▸ List.mem_map_of_mem key hb')
  have := aux l [] hnd (by simp)
  simpa [condFold] using this

theorem dinsert_ne_nil {α : Type} (d : List (String × α)) (k : String)
    (v : α) : dinsert d k v ≠ [] := by
  cases d with
  | nil => simp [dinsert]
  | cons p rest =>
    obtain ⟨k0, v0⟩ := p
    by_cases h : k0 = k
    · simp [dinsert, h]
    · simp [dinsert, h]

theorem dfold_ne_nil {α : Type} :
    ∀ (l : List (String × α)) (acc : List (String × α)),
      acc ≠ [] ∨ l ≠ [] → dfold acc l ≠ [] := by
  intro l
  induction l with
  | nil =>
    intro acc h
    rcases h with h | h
    · exact h
    · exact absurd rfl h
  | cons kv rest ih =>
    intro acc _
    exact ih (dinsert acc kv.1 kv.2) (Or.inl (dinsert_ne_nil acc kv.1 kv.2))

theorem systemStations_ne_nil {stations : List (String × StationData)}
    {r c s : Int} (h : systemHasStations stations r c s = true) :
    systemStations stations r c s ≠ [] := by
  unfold systemHasStations at h
  rw [List.any_eq_true] at h
  obtain ⟨kv, hkv, hcond⟩ := h
  have hmem : kv ∈ stations.filter (fun kv => stationValid kv.2 &&
      kv.2.regionID == some r && kv.2.constellationID == some c &&
      kv.2.solarSystemID == some s) := List.mem_filter.2 ⟨hkv, hcond⟩
  exact dfold_ne_nil _ [] (Or.inr (List.ne_nil_of_mem hmem))

/-! ## Provenance of output nodes -/

theorem regionFn_some {stations : List (String × StationData)}
    {rd : RegionDir} {robj : RegionObj}
    (h : regionFn stations rd = some robj) :
    robj = buildRegionObj stations (rd.regionID == some PLEX_REGION_ID)
      rd.regionID rd.consts ∧
    ((rd.regionID == some PLEX_REGION_ID) = false →
      robj.constellations ≠ []) := by
  simp only [regionFn] at h
  split at h
  · cases h
  · split at h
    · cases h
    · rename_i hcond
      have hX := Option.some.inj h
      refine ⟨hX.symm, ?_⟩
      intro hplex hempty
      exact hcond (by rw [hX, hempty, hplex]; rfl)

theorem constFn_some {stations : List (String × StationData)}
    {isPlex : Bool} {rid : Option Int} {cd : ConstDir} {cobj : ConstObj}
    (h : constFn stations isPlex rid cd = some cobj) :
    ∃ cdata, cd.cyaml = some cdata ∧
      cobj = buildConstObj stations isPlex rid
        (constHasB stations rid cdata.constellationID) cdata cd.systems ∧
      cobj.systems ≠ [] := by
  unfold constFn at h
  cases hcy : cd.cyaml with
  | none =>
    rw [hcy] at h
    cases h
  | some cdata =>
    rw [hcy] at h
    simp only at h
    split at h
    · cases h
    · split at h
      · cases h
      · rename_i hne
        refine ⟨cdata, rfl, (Option.some.inj h).symm, ?_⟩
        rw [← (Option.some.inj h)]
        intro hempty
        exact hne (by simp [List.isEmpty_iff, hempty])

theorem sysFn_some {stations : List (String × StationData)} {isPlex : Bool}
    {rid cid : Option Int} {chas : Bool} {sd : SysDir} {sobj : SysObj}
    (h : sysFn stations isPlex rid cid chas sd = some sobj) :
    ∃ sdata, sd.syaml = some sdata ∧
      sobj = buildSysObj stations rid cid chas sdata ∧
      (isPlex = false →
        sysHasB stations rid cid sdata.solarSystemID chas = true) := by
  unfold sysFn at h
  cases hsy : sd.syaml with
  | none =>
    rw [hsy] at h
    cases h
  | some sdata =>
    rw [hsy] at h
    simp only at h
    split at h
    · cases h
    · rename_i hcond
      refine ⟨sdata, rfl, (Option.some.inj h).symm, ?_⟩
      intro hplex
      cases hhs : sysHasB stations rid cid sdata.solarSystemID chas
      · exact absurd (by simp [hhs, hplex]) hcond
      · rfl

theorem buildSysObj_stations_mem {stations : List (String × StationData)}
    {rid cid : Option Int} {chas : Bool} {sdata : SysData}
    {k : String} {x : StationData}
    (h : (k, x) ∈ (buildSysObj stations rid cid chas sdata).stations) :
    (k, x) ∈ stations ∧ stationValid x = true ∧ x.regionID = rid := by
  simp only [buildSysObj] at h
  split at h
  · rename_i hhs
    unfold sysStationsOf at h
    unfold sysHasB at hhs
    cases hrid : rid with
    | none => rw [hrid] at h; cases h
    | some r =>
      cases hcid : cid with
      | none => rw [hrid, hcid] at h; cases h
      | some c =>
        cases hsid : sdata.solarSystemID with
        | none => rw [hrid, hcid, hsid] at h; cases h
        | some s =>
          rw [hrid, hcid, hsid] at h
          unfold systemStations at h
          rcases dfold_mem h with h' | h'
          · cases h'
          · have := List.mem_filter.1 h'
            obtain ⟨hmem, hcond⟩ := this
            simp only [Bool.and_eq_true, beq_iff_eq] at hcond
            exact ⟨hmem, hcond.1.1.1, by rw [hcond.1.1.2]⟩
  · cases h

/-! ## Claim theorems for the Geographic Hierarchy Correlator -/

/-- C9: a station record missing (or with a falsy) `regionID`,
`constellationID` or `solarSystemID`, or whose `regionID` matches no
region directory of the supplied universe, appears nowhere in the output
tree.  `extract_locations` is a total function, so no such record can
make the run fail. -/
theorem orphan_station_dropped (stations : List (String × StationData))
    (univ : List RegionDir) (sd : StationData)
    (h : stationValid sd = false ∨ ∀ rd ∈ univ, rd.regionID ≠ sd.regionID) :
    ∀ rn robj, (rn, robj) ∈ extract_locations stations univ →
    ∀ cn cobj, (cn, cobj) ∈ robj.constellations →
    ∀ sn sobj, (sn, sobj) ∈ cobj.systems →
    ∀ k x, (k, x) ∈ sobj.stations → x ≠ sd := by
  intro rn robj hr cn cobj hc sn sobj hs k x hx
  obtain ⟨rd, hrd, _hrn, hreg⟩ := condFold_mem hr
  obtain ⟨hrobj, _⟩ := regionFn_some hreg
  have hrobj2 : robj = buildRegionObj stations
      (rd.regionID == some PLEX_REGION_ID) rd.regionID rd.consts := hrobj
  rw [hrobj2] at hc
  obtain ⟨cd, _hcd, _hcn, hcon⟩ := condFold_mem hc
  obtain ⟨cdata, _hcy, hcobj, _⟩ := constFn_some hcon
  have hcobj2 : cobj = buildConstObj stations
      (rd.regionID == some PLEX_REGION_ID) rd.regionID
      (constHasB stations rd.regionID cdata.constellationID) cdata
      cd.systems := hcobj
  rw [hcobj2] at hs
  obtain ⟨sdir, _hsd, _hsn, hsys⟩ := condFold_mem hs
  obtain ⟨sdata, _hsy, hsobj, _⟩ := sysFn_some hsys
  have hsobj2 : sobj = buildSysObj stations rd.regionID
      cdata.constellationID
      (constHasB stations rd.regionID cdata.constellationID) sdata := hsobj
  rw [hsobj2] at hx
  obtain ⟨_hmem, hvalid, hrid⟩ := buildSysObj_stations_mem hx
  intro hxsd
  subst hxsd
  rcases h with h | h
  · rw [hvalid] at h
    cases h
  · exact h rd hrd (by rw [hrid])

/-- Concrete data for the location witnesses: one well-formed station in
region 100, one orphan station in region 200 (no matching region
directory), plus a normal region directory and the PLEX region
directory. -/
def stationOkEx : StationData :=
  ⟨some 61000, some "Home Station", some 100, some 20, some 30⟩

def stationOrphanEx : StationData :=
  ⟨some 61001, some "Lost Station", some 200, some 21, some 31⟩

def stationsEx : List (String × StationData) :=
  [("61000", stationOkEx), ("61001", stationOrphanEx)]

def univEx : List RegionDir :=
  [⟨"HomeRegion", some 100,
    [⟨"HomeConst", some ⟨some 20⟩,
      [⟨"HomeSystem", some ⟨some 30, some 300, some 1⟩⟩,
       ⟨"EmptySystem", some ⟨some 31, some 301, some 1⟩⟩]⟩,
     ⟨"EmptyConst", some ⟨some 22⟩,
      [⟨"OtherSystem", some ⟨some 32, some 302, some 1⟩⟩]⟩]⟩,
   ⟨"PlexRegion", some 19000001,
    [⟨"PlexConst", some ⟨some 50⟩,
      [⟨"PlexSystem", some ⟨some 51, some 510, some 1⟩⟩]⟩]⟩]

theorem sysHasB_elim {stations : List (String × StationData)}
    {rid cid sid : Option Int} {chas : Bool}
    (h : sysHasB stations rid cid sid chas = true) :
    ∃ r c s, rid = some r ∧ cid = some c ∧ sid = some s ∧
      systemHasStations stations r c s = true := by
  unfold sysHasB at h
  cases rid with
  | none => cases h
  | some r =>
    cases cid with
    | none => cases h
    | some c =>
      cases sid with
      | none => cases h
      | some s =>
        rw [Bool.and_eq_true] at h
        exact ⟨r, c, s, rfl, rfl, rfl, h.2⟩

/-- The PLEX region with a single constellation directory holding no
system directories. -/
def plexUnivEx : List RegionDir :=
  [⟨"PlexRegion", some 19000001, [⟨"EmptyConst", some ⟨some 500⟩, []⟩]⟩]

/-- C4 counterexample: the claim says the PLEX region is included in
full together with all its constellations even with zero stations, but
a PLEX constellation directory that holds no systems is dropped
(`len(constellation_obj) > 1` fails): the region appears with an empty
constellation map although its directory has a constellation. -/
theorem plex_empty_constellation_dropped :
    extract_locations [] plexUnivEx =
      [("PlexRegion", ⟨some 19000001, []⟩)] ∧
    plexUnivEx.any (fun rd => rd.regionID == some PLEX_REGION_ID &&
      !rd.consts.isEmpty) = true := by
  decide

theorem orphan_station_dropped_witness :
    (stationValid stationOrphanEx = false ∨
      ∀ rd ∈ univEx, rd.regionID ≠ stationOrphanEx.regionID) ∧
    (∀ rn robj, (rn, robj) ∈ extract_locations stationsEx univEx →
     ∀ cn cobj, (cn, cobj) ∈ robj.constellations →
     ∀ sn sobj, (sn, sobj) ∈ cobj.systems →
     ∀ k x, (k, x) ∈ sobj.stations → x ≠ stationOrphanEx) :=
  ⟨Or.inr (by decide),
   orphan_station_dropped stationsEx univEx stationOrphanEx
     (Or.inr (by decide))⟩

/-- C4 amended: every region in the output either is the PLEX region or
carries only station-bearing content (a nonempty constellation map whose
constellations all hold at least one system, each holding at least one
station); and a PLEX region directory is always emitted — even with zero
stations — together with all its systems and all its constellations that
hold at least one system (a PLEX constellation with no systems is
dropped; directory names are unique since they come from a
filesystem). -/
theorem locations_station_content_and_plex
    (stations : List (String × StationData)) (univ : List RegionDir) :
    (∀ rn robj, (rn, robj) ∈ extract_locations stations univ →
      robj.regionID = some PLEX_REGION_ID ∨
      (robj.constellations ≠ [] ∧
       ∀ cn cobj, (cn, cobj) ∈ robj.constellations →
         cobj.systems ≠ [] ∧
         ∀ sn sobj, (sn, sobj) ∈ cobj.systems → sobj.stations ≠ [])) ∧
    (∀ rd ∈ univ, rd.regionID = some PLEX_REGION_ID →
      (univ.map RegionDir.name).Nodup →
      (rd.consts.map ConstDir.name).Nodup →
      (∀ cd ∈ rd.consts, (cd.systems.map SysDir.name).Nodup) →
      ∃ robj, (rd.name, robj) ∈ extract_locations stations univ ∧
        robj.regionID = some PLEX_REGION_ID ∧
        ∀ cd ∈ rd.consts, ∀ cdata, cd.cyaml = some cdata →
          (∃ sd ∈ cd.systems, sd.syaml.isSome) →
          ∃ cobj, (cd.name, cobj) ∈ robj.constellations ∧
            ∀ sd ∈ cd.systems, ∀ sdata, sd.syaml = some sdata →
              ∃ sobj, (sd.name, sobj) ∈ cobj.systems) := by
  constructor
  · -- only station-bearing content outside the PLEX region
    intro rn robj hr
    obtain ⟨rd, hrd, _hrn, hreg⟩ := condFold_mem hr
    obtain ⟨hrobj, hne⟩ := regionFn_some hreg
    have hrobj2 : robj = buildRegionObj stations
        (rd.regionID == some PLEX_REGION_ID) rd.regionID rd.consts := hrobj
    by_cases hplex : robj.regionID = some PLEX_REGION_ID
    · exact Or.inl hplex
    · right
      have hrid : robj.regionID = rd.regionID := by rw [hrobj2]; rfl
      have hbeq : (rd.regionID == some PLEX_REGION_ID) = false := by
        cases hb : rd.regionID == some PLEX_REGION_ID
        · rfl
        · exact absurd (by rw [hrid]; exact eq_of_beq hb) hplex
      refine ⟨hne hbeq, ?_⟩
      intro cn cobj hc
      rw [hrobj2] at hc
      obtain ⟨cd, _hcd, _hcn, hcon⟩ := condFold_mem hc
      obtain ⟨cdata, _hcy, hcobj, hcne⟩ := constFn_some hcon
      have hcobj2 : cobj = buildConstObj stations
          (rd.regionID == some PLEX_REGION_ID) rd.regionID
          (constHasB stations rd.regionID cdata.constellationID) cdata
          cd.systems := hcobj
      refine ⟨hcne, ?_⟩
      intro sn sobj hs
      rw [hcobj2] at hs
      obtain ⟨sdir, _hsd, _hsn, hsys⟩ := condFold_mem hs
      obtain ⟨sdata, _hsy, hsobj, hsimp⟩ := sysFn_some hsys
      have hsobj2 : sobj = buildSysObj stations rd.regionID
          cdata.constellationID
          (constHasB stations rd.regionID cdata.constellationID)
          sdata := hsobj
      have hhs := hsimp hbeq
      obtain ⟨r, c, s, hr1, hc1, hs1, hsysst⟩ := sysHasB_elim hhs
      rw [hsobj2]
      show (buildSysObj stations rd.regionID cdata.constellationID
        (constHasB stations rd.regionID cdata.constellationID)
        sdata).stations ≠ []
      unfold buildSysObj
      simp only [hhs, if_true]
      unfold sysStationsOf
      rw [hr1, hc1, hs1]
      exact systemStations_ne_nil hsysst
  · -- the PLEX region is emitted with all its system-bearing content
    intro rd hrd hplex hndU hndC hndS
    have hbeq : (rd.regionID == some PLEX_REGION_ID) = true := by
      rw [hplex]
      simp
    refine ⟨buildRegionObj stations true rd.regionID rd.consts, ?_, hplex, ?_⟩
    · have hreg : regionFn stations rd =
          some (buildRegionObj stations true rd.regionID rd.consts) := by
        simp [regionFn, hbeq]
      rw [extract_locations, condFold_filterMap RegionDir.name _ hndU]
      exact List.mem_filterMap.2 ⟨rd, hrd, by rw [hreg]; rfl⟩
    · intro cd hcd cdata hcy hex
      obtain ⟨sd0, hsd0, hsy0⟩ := hex
      obtain ⟨sdata0, hsdata0⟩ := Option.isSome_iff_exists.1 hsy0
      have hsysfn : ∀ sd : SysDir, ∀ sdata, sd.syaml = some sdata →
          sysFn stations true rd.regionID cdata.constellationID
            (constHasB stations rd.regionID cdata.constellationID) sd =
          some (buildSysObj stations rd.regionID cdata.constellationID
            (constHasB stations rd.regionID cdata.constellationID)
            sdata) := by
        intro sd sdata hsy
        simp [sysFn, hsy]
      have hsystems : (buildConstObj stations true rd.regionID
          (constHasB stations rd.regionID cdata.constellationID) cdata
          cd.systems).systems =
          cd.systems.filterMap (fun sd =>
            (sysFn stations true rd.regionID cdata.constellationID
              (constHasB stations rd.regionID cdata.constellationID)
              sd).map (fun v => (sd.name, v))) := by
        unfold buildConstObj
        exact condFold_filterMap SysDir.name _ (hndS cd hcd)
      have hmem0 : (sd0.name, buildSysObj stations rd.regionID
          cdata.constellationID
          (constHasB stations rd.regionID cdata.constellationID)
          sdata0) ∈ (buildConstObj stations true rd.regionID
            (constHasB stations rd.regionID cdata.constellationID) cdata
            cd.systems).systems := by
        rw [hsystems]
        exact List.mem_filterMap.2 ⟨sd0, hsd0,
          by rw [hsysfn sd0 sdata0 hsdata0]; rfl⟩
      have hsysne : (buildConstObj stations true rd.regionID
          (constHasB stations rd.regionID cdata.constellationID) cdata
          cd.systems).systems ≠ [] := List.ne_nil_of_mem hmem0
      have hconstfn : constFn stations true rd.regionID cd =
          some (buildConstObj stations true rd.regionID
            (constHasB stations rd.regionID cdata.constellationID) cdata
            cd.systems) := by
        simp only [constFn, hcy]
        rw [if_neg (by simp), if_neg (by simp [List.isEmpty_iff, hsysne])]
      refine ⟨buildConstObj stations true rd.regionID
        (constHasB stations rd.regionID cdata.constellationID) cdata
        cd.systems, ?_, ?_⟩
      · show _ ∈ (buildRegionObj stations true rd.regionID rd.consts).constellations
        unfold buildRegionObj
        rw [condFold_filterMap ConstDir.name _ hndC]
        exact List.mem_filterMap.2 ⟨cd, hcd, by rw [hconstfn]; rfl⟩
      · intro sd hsd sdata hsy
        refine ⟨buildSysObj stations rd.regionID cdata.constellationID
          (constHasB stations rd.regionID cdata.constellationID) sdata, ?_⟩
        rw [hsystems]
        exact List.mem_filterMap.2 ⟨sd, hsd, by rw [hsysfn sd sdata hsy]; rfl⟩

theorem locations_station_content_and_plex_witness :
    ((univEx.map RegionDir.name).Nodup ∧
     (∃ rd ∈ univEx, rd.regionID = some PLEX_REGION_ID)) ∧
    (∃ robj, ("PlexRegion", robj) ∈ extract_locations stationsEx univEx ∧
      robj.regionID = some PLEX_REGION_ID ∧
      ∀ cd ∈ [(⟨"PlexConst", some ⟨some 50⟩,
          [⟨"PlexSystem", some ⟨some 51, some 510, some 1⟩⟩]⟩ : ConstDir)],
        ∀ cdata, cd.cyaml = some cdata →
        (∃ sd ∈ cd.systems, sd.syaml.isSome) →
        ∃ cobj, (cd.name, cobj) ∈ robj.constellations ∧
          ∀ sd ∈ cd.systems, ∀ sdata, sd.syaml = some sdata →
            ∃ sobj, (sd.name, sobj) ∈ cobj.systems) :=
  ⟨⟨by decide, ⟨univEx.get ⟨1, by decide⟩, by decide, by decide⟩⟩,
   (locations_station_content_and_plex stationsEx univEx).2
     (univEx.get ⟨1, by decide⟩) (by decide) (by decide) (by decide)
     (by decide) (by decide)⟩

/-! ## Market Taxonomy Builder (`extract_market`)

Keys of `types.yaml`, `marketGroups.yaml` and `iconIDs.yaml` are
normalized to numeric ids (`int(k)`, non-negative in the SDE, modelled
as `Nat`).  The recursion of `build_node` over `children_map` is
modelled with explicit fuel: the source recurses unboundedly (and would
overflow the stack on cyclic parent links); whenever the fuel exceeds
the height of the group forest the model runs the source to
completion. -/

/-- The fields of a `types.yaml` record read by `extract_market`. -/
structure MTypeData where
  name_en : Option String
  marketGroupID : Option Nat
  iconID : Option Nat
  volume : Option Rat
  mass : Option Rat
  published : Option Bool
deriving DecidableEq, Repr

/-- One record of `marketGroups.yaml`. -/
structure MarketGroupData where
  nameID_en : Option String
  parentGroupID : Option Nat
  iconID : Option Nat
  hasTypes : Option Bool
deriving DecidableEq, Repr

/-- One record of `iconIDs.yaml`. -/
structure IconData where
  iconFile : Option String
deriving DecidableEq, Repr

/-- Python `s.split("/")`. -/
def splitSlash : List Char → List (List Char)
  | [] => [[]]
  | c :: rest =>
    if c = '/' then [] :: splitSlash rest
    else
      match splitSlash rest with
      | [] => [[c]]
      | h :: t => (c :: h) :: t

/-- `icon_data.get("iconFile", "").split("/")[-1]`. -/
def basename (s : String) : String := ⟨(splitSlash s.data).getLastD []⟩

/-- `icon_lookup.get(i, "")`: the basename of the icon file of icon id
`i`, or `""`. -/
def icon_lookup (icons : List (Nat × IconData)) (i : Nat) : String :=
  match icons.lookup i with
  | none => ""
  | some d => basename (d.iconFile.getD "")

/-- Little-endian decimal digits of `n`; the fuel is only a structural
bound (`fuel ≥ n` suffices) making the recursion kernel-reducible. -/
def natDigitsCore : Nat → Nat → List Char
  | _, 0 => []
  | n, fuel+1 => if n = 0 then [] else Nat.digitChar (n % 10) :: natDigitsCore (n / 10) fuel

/-- Python `str(n)` for a natural number. -/
def natStr (n : Nat) : String :=
  if n = 0 then "0" else ⟨(natDigitsCore n n).reverse⟩

/-- The item dict appended to `types_by_mgid[mgid]`. -/
structure ItemOut where
  typeID : String
  typeName : String
  iconID : String
  iconFile : String
  volume : Rat
  mass : Rat
  published : Bool
deriving DecidableEq, Repr

def mkItemOut (icons : List (Nat × IconData)) (tid : Nat) (td : MTypeData) :
    ItemOut :=
  { typeID := natStr tid,
    typeName := td.name_en.getD "Unknown",
    iconID := match td.iconID with
      | some i => natStr i
      | none => "",
    iconFile := icon_lookup icons (td.iconID.getD 0),
    volume := td.volume.getD 0,
    mass := td.mass.getD 0,
    published := td.published.getD false }

/-- `types_by_mgid[m]`: published or not, a type is bucketed iff its
`marketGroupID` is present and is a key of `market_groups`. -/
def typesByMgid (groups : List (Nat × MarketGroupData))
    (icons : List (Nat × IconData)) (types : List (Nat × MTypeData))
    (m : Nat) : List ItemOut :=
  (types.filter (fun p => p.2.marketGroupID == some m &&
    (groups.lookup m).isSome)).map (fun p => mkItemOut icons p.1 p.2)

/-- `children_map[p]`: the group ids whose `parentGroupID` is `p`
(`none` selects the forest roots), in table order. -/
def childrenOf (groups : List (Nat × MarketGroupData)) (p : Option Nat) :
    List Nat :=
  (groups.filter (fun g => g.2.parentGroupID == p)).map Prod.fst

/-- The resolved display name of group `g`
(`market_groups[g].get("nameID", {}).get("en", f"Unknown_{g}")`); the
`none` branch mirrors the same placeholder (the source would raise
`KeyError`, but is only ever called on existing keys). -/
def groupNameKey (groups : List (Nat × MarketGroupData)) (g : Nat) :
    String :=
  match groups.lookup g with
  | none => "Unknown_" ++ natStr g
  | some gd => gd.nameID_en.getD ("Unknown_" ++ natStr g)

def gnameOf (gd : MarketGroupData) (g : Nat) : String :=
  gd.nameID_en.getD ("Unknown_" ++ natStr g)

/-- The `_info` block of a group node. -/
structure GroupInfo where
  marketGroupID : String
  iconID : String
  iconFile : String
  hasTypes : String
deriving DecidableEq, Repr

def mkInfo (icons : List (Nat × IconData)) (g : Nat)
    (gd : MarketGroupData) : GroupInfo :=
  { marketGroupID := natStr g,
    iconID := natStr (gd.iconID.getD 0),
    iconFile := icon_lookup icons (gd.iconID.getD 0),
    hasTypes := if gd.hasTypes.getD false then "True" else "False" }

/-- A value of a market-tree dict: the `_info` block, an `items` list,
or a nested group node. -/
inductive MEntry where
  | info (i : GroupInfo)
  | items (xs : List ItemOut)
  | sub (n : List (String × MEntry))

/-- `build_node(mgid)`: the returned singleton `{group_name: node}`.
A group whose id is not a key resolves to `[]` (the source would raise
`KeyError`; all call sites pass existing keys), as does exhausted
fuel. -/
def build_node (groups : List (Nat × MarketGroupData))
    (icons : List (Nat × IconData)) (types : List (Nat × MTypeData)) :
    Nat → Nat → List (String × MEntry)
  | 0, _ => []
  | fuel+1, mgid =>
    match groups.lookup mgid with
    | none => []
    | some gd =>
      if gd.hasTypes.getD false then
        [(gnameOf gd mgid, MEntry.sub
          [("_info", MEntry.info (mkInfo icons mgid gd)),
           ("items", MEntry.items (sortBy
             (fun a b => strLtB a.typeName b.typeName)
             (typesByMgid groups icons types mgid)))])]
      else
        let children := sortBy
          (fun a b => strLtB (groupNameKey groups a) (groupNameKey groups b))
          (childrenOf groups (some mgid))
        let child_nodes := children.foldl
          (fun acc c => dfold acc (build_node groups icons types fuel c)) []
        [(gnameOf gd mgid, MEntry.sub
          (dinsert (sortBy (fun a b => strLtB a.1 b.1) child_nodes)
            "_info" (MEntry.info (mkInfo icons mgid gd))))]

/-- The top-level `market_tree`: the forest roots built in
name-sorted order and merged into one dict. -/
def market_tree (groups : List (Nat × MarketGroupData))
    (icons : List (Nat × IconData)) (types : List (Nat × MTypeData))
    (fuel : Nat) : List (String × MEntry) :=
  (sortBy (fun a b => strLtB (groupNameKey groups a) (groupNameKey groups b))
    (childrenOf groups none)).foldl
    (fun acc r => dfold acc (build_node groups icons types fuel r)) []

/-- The numeric value of a little-endian decimal digit list. -/
def valLE : List Char → Nat
  | [] => 0
  | c :: r => (c.toNat - 48) + 10 * valLE r

/-- How many times an item with `typeID = t` occurs across all the
`items` lists of a market-tree value. -/
def countEntry : MEntry → String → Nat
  | .info _, _ => 0
  | .items xs, t => xs.countP (fun i => i.typeID == t)
  | .sub [], _ => 0
  | .sub ((_, e) :: rest), t => countEntry e t + countEntry (.sub rest) t

def countNode (n : List (String × MEntry)) (t : String) : Nat :=
  countEntry (.sub n) t

/-- The parent link of group `g` in the `marketGroups` table. -/
def parentF (groups : List (Nat × MarketGroupData)) (g : Nat) : Option Nat :=
  (groups.lookup g).bind (fun gd => gd.parentGroupID)

/-- The ancestor chain `[g, parent g, …, root]` of group `g`, or `[]`
if a link is missing or the chain does not close within `fuel` steps. -/
def chainList (groups : List (Nat × MarketGroupData)) :
    Nat → Nat → List Nat
  | 0, _ => []
  | fuel+1, g =>
    match groups.lookup g with
    | none => []
    | some gd =>
      match gd.parentGroupID with
      | none => [g]
      | some p =>
        match chainList groups fuel p with
        | [] => []
        | rest => g :: rest

/-- Market tables exercising the published flag and an unreachable
group: group 2 sits below the `hasTypes` group 1, so its bucket is
never emitted. -/
def mkGroupsEx : List (Nat × MarketGroupData) :=
  [(1, ⟨some "A", none, none, some true⟩),
   (2, ⟨some "B", some 1, none, some true⟩)]

def mkTypesEx : List (Nat × MTypeData) :=
  [(10, ⟨some "x", some 1, none, none, none, some false⟩),
   (11, ⟨some "y", some 2, none, none, none, some true⟩)]

/-- A `hasTypes` group with a child group, and a non-`hasTypes` group
with a directly attached type. -/
def shapeGroupsEx : List (Nat × MarketGroupData) :=
  [(1, ⟨some "A", none, none, some true⟩),
   (2, ⟨some "B", some 1, none, some true⟩),
   (3, ⟨some "C", none, none, some false⟩)]

def shapeTypesEx : List (Nat × MTypeData) :=
  [(10, ⟨some "alpha", some 1, none, none, none, some true⟩),
   (12, ⟨some "zeta", some 3, none, none, none, some true⟩)]

/-- Two items whose display names compare differently with and without
case folding. -/
def ciGroupsEx : List (Nat × MarketGroupData) :=
  [(1, ⟨some "A", none, none, some true⟩)]

def ciTypesEx : List (Nat × MTypeData) :=
  [(10, ⟨some "alpha", some 1, none, none, none, some true⟩),
   (11, ⟨some "Beta", some 1, none, none, none, some true⟩)]

/-! ## Market lemmas: decimal strings and lookups -/

theorem digitChar_sub {m : Nat} (h : m < 10) : (Nat.digitChar m).toNat - 48 = m := by
  interval_cases m <;> rfl

theorem natDigitsCore_val : ∀ (fuel n : Nat), n ≤ fuel → valLE (natDigitsCore n fuel) = n := by
  intro fuel
  induction fuel with
  | zero =>
    intro n h
    interval_cases n
    rfl
  | succ f ih =>
    intro n h
    by_cases h0 : n = 0
    · subst h0; rfl
    · have hd : natDigitsCore n (f+1) =
          Nat.digitChar (n % 10) :: natDigitsCore (n / 10) f := by
        rw [natDigitsCore, if_neg h0]
      have hlt : n / 10 < n := Nat.div_lt_self (by omega) (by omega)
      rw [hd, valLE, digitChar_sub (Nat.mod_lt _ (by omega)),
        ih (n / 10) (by omega)]
      omega

theorem natStr_inj : ∀ {a b : Nat}, natStr a = natStr b → a = b := by
  intro a b h
  by_cases ha : a = 0 <;> by_cases hb : b = 0
  · omega
  · exfalso
    rw [natStr, if_pos ha, natStr, if_neg hb] at h
    have hdata : ['0'] = (natDigitsCore b b).reverse := congrArg String.data h
    have hX : natDigitsCore b b = ['0'] := by
      have := congrArg List.reverse hdata
      simpa using this.symm
    have hval := natDigitsCore_val b b (Nat.le_refl b)
    rw [hX] at hval
    simp [valLE] at hval
    omega
  · exfalso
    rw [natStr, if_neg ha, natStr, if_pos hb] at h
    have hdata : (natDigitsCore a a).reverse = ['0'] := congrArg String.data h
    have hX : natDigitsCore a a = ['0'] := by
      have := congrArg List.reverse hdata
      simpa using this
    have hval := natDigitsCore_val a a (Nat.le_refl a)
    rw [hX] at hval
    simp [valLE] at hval
    omega
  · rw [natStr, if_neg ha, natStr, if_neg hb] at h
    have hdata := congrArg String.data h
    have hrev : natDigitsCore a a = natDigitsCore b b :=
      List.reverse_injective hdata
    have hva := natDigitsCore_val a a (Nat.le_refl a)
    have hvb := natDigitsCore_val b b (Nat.le_refl b)
    rw [hrev, hvb] at hva
    omega

theorem lookup_mem {β : Type} :
    ∀ {l : List (Nat × β)} {k : Nat} {v : β}, l.lookup k = some v → (k, v) ∈ l := by
  intro l
  induction l with
  | nil => intro k v h; cases h
  | cons x xs ih =>
    intro k v h
    obtain ⟨k1, v1⟩ := x
    cases hk : k == k1 with
    | false =>
      simp only [List.lookup, hk] at h
      exact List.mem_cons_of_mem _ (ih h)
    | true =>
      simp only [List.lookup, hk] at h
      have hke : k = k1 := by simpa using hk
      subst hke
      cases h
      exact List.mem_cons_self _ _

theorem lookup_of_mem_nodup {β : Type} :
    ∀ {l : List (Nat × β)}, (l.map Prod.fst).Nodup →
      ∀ {k : Nat} {v : β}, (k, v) ∈ l → l.lookup k = some v := by
  intro l
  induction l with
  | nil => intro _ k v h; cases h
  | cons x xs ih =>
    intro hnd k v h
    obtain ⟨k1, v1⟩ := x
    rw [List.map_cons, List.nodup_cons] at hnd
    rcases List.mem_cons.1 h with heq | hmem
    · cases heq
      simp [List.lookup]
    · have hne : k ≠ k1 := by
        intro hk
        apply hnd.1
        show k1 ∈ xs.map Prod.fst
        rw [← hk]
        exact List.mem_map_of_mem Prod.fst hmem
      cases hk : k == k1 with
      | true => exact absurd (by simpa using hk) hne
      | false =>
        simp only [List.lookup, hk]
        exact ih hnd.2 hmem

theorem countEntry_info (i : GroupInfo) (t : String) :
    countEntry (.info i) t = 0 := by
  simp [countEntry]

theorem countEntry_items (xs : List ItemOut) (t : String) :
    countEntry (.items xs) t = xs.countP (fun i => i.typeID == t) := by
  simp [countEntry]

theorem countEntry_sub_nil (t : String) : countEntry (.sub []) t = 0 := by
  simp [countEntry]

theorem countEntry_sub_cons (k : String) (e : MEntry)
    (rest : List (String × MEntry)) (t : String) :
    countEntry (.sub ((k, e) :: rest)) t =
      countEntry e t + countEntry (.sub rest) t := by
  simp [countEntry]

theorem countNode_eq_sum (n : List (String × MEntry)) (t : String) :
    countNode n t = (n.map (fun ke => countEntry ke.2 t)).sum := by
  induction n with
  | nil => simp [countNode, countEntry_sub_nil]
  | cons ke rest ih =>
    obtain ⟨k, e⟩ := ke
    rw [countNode] at ih ⊢
    rw [countEntry_sub_cons, List.map_cons, List.sum_cons, ih]

theorem countNode_perm {n n' : List (String × MEntry)}
    (h : List.Perm n n') (t : String) : countNode n t = countNode n' t := by
  rw [countNode_eq_sum, countNode_eq_sum]
  exact List.Perm.sum_eq (h.map _)

theorem countNode_append (a b : List (String × MEntry)) (t : String) :
    countNode (a ++ b) t = countNode a t + countNode b t := by
  simp [countNode_eq_sum]

theorem countNode_flatten (ls : List (List (String × MEntry))) (t : String) :
    countNode ls.flatten t = (ls.map (fun l => countNode l t)).sum := by
  induction ls with
  | nil => simp [countNode, countEntry_sub_nil]
  | cons l rest ih => rw [List.flatten_cons, countNode_append, ih, List.map_cons, List.sum_cons]

theorem countNode_zero {n : List (String × MEntry)} {t : String}
    (h : ∀ ke ∈ n, countEntry ke.2 t = 0) : countNode n t = 0 := by
  rw [countNode_eq_sum]
  exact List.sum_eq_zero (by
    intro x hx
    rcases List.mem_map.1 hx with ⟨ke, hke, hxe⟩
    rw [← hxe]
    exact h ke hke)

theorem countNode_singleton (k : String) (e : MEntry) (t : String) :
    countNode [(k, e)] t = countEntry e t := by
  rw [countNode, countEntry_sub_cons, countEntry_sub_nil]
  omega

/-! Equations and shape facts for `build_node`. -/

theorem build_node_zero (groups : List (Nat × MarketGroupData))
    (icons : List (Nat × IconData)) (types : List (Nat × MTypeData))
    (g : Nat) : build_node groups icons types 0 g = [] := rfl

theorem build_node_lookup_none {groups : List (Nat × MarketGroupData)}
    (icons : List (Nat × IconData)) (types : List (Nat × MTypeData))
    {g : Nat} (fuel : Nat) (h : groups.lookup g = none) :
    build_node groups icons types (fuel+1) g = [] := by
  simp [build_node, h]

theorem build_node_true {groups : List (Nat × MarketGroupData)}
    (icons : List (Nat × IconData)) (types : List (Nat × MTypeData))
    {g : Nat} {gd : MarketGroupData} (fuel : Nat)
    (h : groups.lookup g = some gd) (hht : gd.hasTypes.getD false = true) :
    build_node groups icons types (fuel+1) g =
      [(gnameOf gd g, MEntry.sub
        [("_info", MEntry.info (mkInfo icons g gd)),
         ("items", MEntry.items (sortBy
           (fun a b => strLtB a.typeName b.typeName)
           (typesByMgid groups icons types g)))])] := by
  simp [build_node, h, hht]

theorem build_node_false {groups : List (Nat × MarketGroupData)}
    (icons : List (Nat × IconData)) (types : List (Nat × MTypeData))
    {g : Nat} {gd : MarketGroupData} (fuel : Nat)
    (h : groups.lookup g = some gd) (hht : gd.hasTypes.getD false = false) :
    build_node groups icons types (fuel+1) g =
      [(gnameOf gd g, MEntry.sub
        (dinsert (sortBy (fun a b => strLtB a.1 b.1)
          ((sortBy (fun a b =>
              strLtB (groupNameKey groups a) (groupNameKey groups b))
            (childrenOf groups (some g))).foldl
            (fun acc c => dfold acc (build_node groups icons types fuel c)) []))
          "_info" (MEntry.info (mkInfo icons g gd))))] := by
  simp [build_node, h, hht]

theorem groupNameKey_eq {groups : List (Nat × MarketGroupData)} {g : Nat}
    {gd : MarketGroupData} (h : groups.lookup g = some gd) :
    groupNameKey groups g = gnameOf gd g := by
  simp [groupNameKey, gnameOf, h]

theorem build_node_cases (groups : List (Nat × MarketGroupData))
    (icons : List (Nat × IconData)) (types : List (Nat × MTypeData))
    (fuel g : Nat) :
    build_node groups icons types fuel g = [] ∨
      ∃ gd n, groups.lookup g = some gd ∧
        build_node groups icons types fuel g = [(gnameOf gd g, MEntry.sub n)] := by
  cases fuel with
  | zero => exact Or.inl rfl
  | succ f =>
    cases hlk : groups.lookup g with
    | none => exact Or.inl (build_node_lookup_none icons types f hlk)
    | some gd =>
      cases hht : gd.hasTypes.getD false with
      | true => exact Or.inr ⟨gd, _, rfl, build_node_true icons types f hlk hht⟩
      | false => exact Or.inr ⟨gd, _, rfl, build_node_false icons types f hlk hht⟩

theorem build_node_entry {groups : List (Nat × MarketGroupData)}
    {icons : List (Nat × IconData)} {types : List (Nat × MTypeData)}
    {fuel g : Nat} {k : String} {e : MEntry}
    (h : (k, e) ∈ build_node groups icons types fuel g) :
    ∃ gd n, groups.lookup g = some gd ∧ k = gnameOf gd g ∧ e = MEntry.sub n ∧
      build_node groups icons types fuel g = [(k, e)] := by
  rcases build_node_cases groups icons types fuel g with hnil | ⟨gd, n, hlk, heq⟩
  · rw [hnil] at h; cases h
  · rw [heq] at h
    rcases List.mem_singleton.1 h with hke
    have hk : k = gnameOf gd g := congrArg Prod.fst hke
    have he : e = MEntry.sub n := congrArg Prod.snd hke
    exact ⟨gd, n, hlk, hk, he, by rw [heq, ← hk, ← he]⟩

/-! Generic lemmas about folding `dict.update` of per-key results. -/

theorem foldIns_mem {β : Type} (h : Nat → List (String × β)) :
    ∀ (l : List Nat) (acc : List (String × β)) (x : String × β),
      x ∈ l.foldl (fun acc c => dfold acc (h c)) acc →
      x ∈ acc ∨ ∃ c ∈ l, x ∈ h c := by
  intro l
  induction l with
  | nil => intro acc x hx; exact Or.inl hx
  | cons c cs ih =>
    intro acc x hx
    rw [List.foldl_cons] at hx
    rcases ih _ x hx with hacc | ⟨c', hc', hx'⟩
    · rcases dfold_mem hacc with h1 | h2
      · exact Or.inl h1
      · exact Or.inr ⟨c, List.mem_cons_self _ _, h2⟩
    · exact Or.inr ⟨c', List.mem_cons_of_mem _ hc', hx'⟩

theorem foldIns_eq_flatten {β : Type} (h : Nat → List (String × β)) :
    ∀ (l : List Nat) (acc : List (String × β)),
      (∀ c ∈ l, ∀ kv ∈ h c, kv.1 ∉ acc.map Prod.fst) →
      (∀ c ∈ l, ((h c).map Prod.fst).Nodup) →
      l.Pairwise (fun c c' => ∀ kv ∈ h c, ∀ kv' ∈ h c', kv.1 ≠ kv'.1) →
      l.foldl (fun acc c => dfold acc (h c)) acc = acc ++ (l.map h).flatten := by
  intro l
  induction l with
  | nil => intro acc _ _ _; simp
  | cons c cs ih =>
    intro acc hfresh hnd hpw
    rw [List.pairwise_cons] at hpw
    have hstep : dfold acc (h c) = acc ++ h c :=
      dfold_fresh_nodup (fun x hx => hfresh c (List.mem_cons_self _ _) x hx)
        (hnd c (List.mem_cons_self _ _))
    rw [List.foldl_cons, hstep,
      ih (acc ++ h c) ?_ (fun c' hc' => hnd c' (List.mem_cons_of_mem _ hc')) hpw.2]
    · rw [List.map_cons, List.flatten_cons, List.append_assoc]
    · intro c' hc' kv hkv
      rw [List.map_append, List.mem_append]
      rintro (h1 | h2)
      · exact hfresh c' (List.mem_cons_of_mem _ hc') kv hkv h1
      · rcases List.mem_map.1 h2 with ⟨kv', hkv', hfst⟩
        exact hpw.1 c' hc' kv' hkv' kv hkv (hfst.symm ▸ rfl) |>.elim
      

theorem chainList_none {groups : List (Nat × MarketGroupData)} {g : Nat}
    (f : Nat) (h : groups.lookup g = none) : chainList groups (f+1) g = [] := by
  simp only [chainList, h]

theorem chainList_root {groups : List (Nat × MarketGroupData)} {g : Nat}
    {gd : MarketGroupData} (f : Nat) (hlk : groups.lookup g = some gd)
    (hpar : gd.parentGroupID = none) : chainList groups (f+1) g = [g] := by
  simp only [chainList, hlk, hpar]

theorem chainList_step {groups : List (Nat × MarketGroupData)} {g p r : Nat}
    {rs : List Nat} {gd : MarketGroupData} (f : Nat)
    (hlk : groups.lookup g = some gd) (hpar : gd.parentGroupID = some p)
    (hcp : chainList groups f p = r :: rs) :
    chainList groups (f+1) g = g :: r :: rs := by
  simp only [chainList, hlk, hpar, hcp]

theorem chainList_step_nil {groups : List (Nat × MarketGroupData)} {g p : Nat}
    {gd : MarketGroupData} (f : Nat)
    (hlk : groups.lookup g = some gd) (hpar : gd.parentGroupID = some p)
    (hcp : chainList groups f p = []) : chainList groups (f+1) g = [] := by
  simp only [chainList, hlk, hpar, hcp]

theorem parentF_some {groups : List (Nat × MarketGroupData)} {g : Nat}
    {gd : MarketGroupData} (hlk : groups.lookup g = some gd) :
    parentF groups g = gd.parentGroupID := by
  simp [parentF, hlk]

theorem chainList_head {groups : List (Nat × MarketGroupData)} :
    ∀ {fuel g : Nat}, chainList groups fuel g ≠ [] →
      ∃ rest, chainList groups fuel g = g :: rest := by
  intro fuel g h
  cases fuel with
  | zero => exact absurd rfl h
  | succ f =>
    cases hlk : groups.lookup g with
    | none => exact absurd (chainList_none f hlk) h
    | some gd =>
      cases hpar : gd.parentGroupID with
      | none => exact ⟨[], chainList_root f hlk hpar⟩
      | some p =>
        cases hcp : chainList groups f p with
        | nil => exact absurd (chainList_step_nil f hlk hpar hcp) h
        | cons r rs => exact ⟨r :: rs, chainList_step f hlk hpar hcp⟩

theorem chainList_lookup {groups : List (Nat × MarketGroupData)} :
    ∀ {fuel g : Nat}, ∀ x ∈ chainList groups fuel g,
      ∃ xd, groups.lookup x = some xd := by
  intro fuel
  induction fuel with
  | zero => intro g x hx; cases hx
  | succ f ih =>
    intro g x hx
    cases hlk : groups.lookup g with
    | none => rw [chainList_none f hlk] at hx; cases hx
    | some gd =>
      cases hpar : gd.parentGroupID with
      | none =>
        rw [chainList_root f hlk hpar] at hx
        rcases List.mem_singleton.1 hx with rfl
        exact ⟨gd, hlk⟩
      | some p =>
        cases hcp : chainList groups f p with
        | nil => rw [chainList_step_nil f hlk hpar hcp] at hx; cases hx
        | cons r rs =>
          rw [chainList_step f hlk hpar hcp] at hx
          rcases List.mem_cons.1 hx with rfl | hx'
          · exact ⟨gd, hlk⟩
          · exact ih x (by rw [hcp]; exact hx')

theorem chainList_parent_infix {groups : List (Nat × MarketGroupData)} :
    ∀ {fuel g : Nat}, ∀ c ∈ chainList groups fuel g, ∀ {p : Nat},
      parentF groups c = some p → [c, p] <:+: chainList groups fuel g := by
  intro fuel
  induction fuel with
  | zero => intro g c hc; cases hc
  | succ f ih =>
    intro g c hc p hp
    cases hlk : groups.lookup g with
    | none => rw [chainList_none f hlk] at hc; cases hc
    | some gd =>
      cases hpar : gd.parentGroupID with
      | none =>
        rw [chainList_root f hlk hpar] at hc
        rcases List.mem_singleton.1 hc with rfl
        rw [parentF_some hlk, hpar] at hp
        cases hp
      | some q =>
        cases hcp : chainList groups f q with
        | nil => rw [chainList_step_nil f hlk hpar hcp] at hc; cases hc
        | cons r rs =>
          rw [chainList_step f hlk hpar hcp] at hc
          rw [chainList_step f hlk hpar hcp]
          rcases List.mem_cons.1 hc with rfl | hc'
          · rw [parentF_some hlk, hpar] at hp
            cases hp
            have hr : r = p := by
              rcases @chainList_head groups f p
                  (by rw [hcp]; exact List.cons_ne_nil _ _) with ⟨rest, hrest⟩
              rw [hcp] at hrest
              exact (List.cons.injEq r rs p rest ▸ hrest).1
            subst hr
            exact ⟨[], rs, rfl⟩
          · have hinf := ih c (by rw [hcp]; exact hc') hp
            rw [hcp] at hinf
            exact List.infix_cons hinf

theorem chainList_parent_none_last {groups : List (Nat × MarketGroupData)} :
    ∀ {fuel g : Nat} (x : Nat),
      x ∈ chainList groups fuel g → parentF groups x = none →
      (chainList groups fuel g).getLast? = some x := by
  intro fuel
  induction fuel with
  | zero => intro g x hx; cases hx
  | succ f ih =>
    intro g x hx hpn
    cases hlk : groups.lookup g with
    | none => rw [chainList_none f hlk] at hx; cases hx
    | some gd =>
      cases hpar : gd.parentGroupID with
      | none =>
        have hroot := chainList_root f hlk hpar
        rw [hroot] at hx
        rcases List.mem_singleton.1 hx with rfl
        rw [hroot]
        rfl
      | some q =>
        cases hcp : chainList groups f q with
        | nil => rw [chainList_step_nil f hlk hpar hcp] at hx; cases hx
        | cons r rs =>
          have hstep := chainList_step f hlk hpar hcp
          rw [hstep] at hx
          rw [hstep, List.getLast?_cons_cons]
          rcases List.mem_cons.1 hx with rfl | hx'
          · rw [parentF_some hlk, hpar] at hpn
            cases hpn
          · have := ih x (by rw [hcp]; exact hx') hpn
            rw [hcp] at this
            exact this

theorem chainList_getLast_parent {groups : List (Nat × MarketGroupData)} :
    ∀ {fuel g x : Nat},
      (chainList groups fuel g).getLast? = some x → parentF groups x = none := by
  intro fuel
  induction fuel with
  | zero => intro g x hx; cases hx
  | succ f ih =>
    intro g x hx
    cases hlk : groups.lookup g with
    | none => rw [chainList_none f hlk] at hx; cases hx
    | some gd =>
      cases hpar : gd.parentGroupID with
      | none =>
        rw [chainList_root f hlk hpar] at hx
        have : g = x := by simpa using hx
        subst this
        rw [parentF_some hlk, hpar]
      | some q =>
        cases hcp : chainList groups f q with
        | nil => rw [chainList_step_nil f hlk hpar hcp] at hx; cases hx
        | cons r rs =>
          rw [chainList_step f hlk hpar hcp, List.getLast?_cons_cons] at hx
          exact ih (by rw [hcp]; exact hx)

theorem getLast?_mem' {α : Type} :
    ∀ {l : List α} {a : α}, l.getLast? = some a → a ∈ l := by
  intro l
  induction l with
  | nil => intro a h; cases h
  | cons x xs ih =>
    intro a h
    cases xs with
    | nil =>
      have : x = a := by simpa using h
      subst this
      exact List.mem_cons_self _ _
    | cons y ys =>
      rw [List.getLast?_cons_cons] at h
      exact List.mem_cons_of_mem _ (ih h)

theorem infix_pair_head_absurd {g c' : Nat} {t1 : List Nat}
    (hnd2 : (g :: t1).Nodup) (hi : [c', g] <:+: g :: t1) : False := by
  rw [List.nodup_cons] at hnd2
  have hg : g ∈ t1 := by
    rcases List.infix_cons_iff.1 hi with hp | hi'
    · obtain ⟨t3, ht3⟩ := hp
      have h3 : c' :: (g :: t3) = g :: t1 := ht3
      injection h3 with h1 h2
      rw [← h2]
      exact List.mem_cons_self _ _
    · exact hi'.subset (by simp)
  exact hnd2.1 hg

theorem pred_unique {l : List Nat} :
    l.Nodup → ∀ {c c' g : Nat}, [c, g] <:+: l → [c', g] <:+: l → c = c' := by
  induction l with
  | nil =>
    intro _ c c' g h1 _
    rcases h1 with ⟨s, t, hst⟩
    cases s <;> cases hst
  | cons x xs ih =>
    intro hnd c c' g h1 h2
    rw [List.nodup_cons] at hnd
    rcases List.infix_cons_iff.1 h1 with hp1 | hi1 <;>
      rcases List.infix_cons_iff.1 h2 with hp2 | hi2
    · obtain ⟨t1, ht1⟩ := hp1
      obtain ⟨t2, ht2⟩ := hp2
      have ht1' : c :: (g :: t1) = x :: xs := ht1
      have ht2' : c' :: (g :: t2) = x :: xs := ht2
      rw [← ht1'] at ht2'
      injection ht2' with hcc _
      exact hcc.symm
    · obtain ⟨t1, ht1⟩ := hp1
      have ht1' : c :: (g :: t1) = x :: xs := ht1
      injection ht1' with hx hxs
      exfalso
      have hnd2 : (g :: t1).Nodup := by rw [hxs]; exact hnd.2
      have hi2' : [c', g] <:+: g :: t1 := by rw [hxs]; exact hi2
      exact infix_pair_head_absurd hnd2 hi2'
    · obtain ⟨t2, ht2⟩ := hp2
      have ht2' : c' :: (g :: t2) = x :: xs := ht2
      injection ht2' with hx hxs
      exfalso
      have hnd2 : (g :: t2).Nodup := by rw [hxs]; exact hnd.2
      have hi1' : [c, g] <:+: g :: t2 := by rw [hxs]; exact hi1
      exact infix_pair_head_absurd hnd2 hi1'
    · exact ih hnd.2 hi1 hi2

theorem countP_pairs_one {β : Type} :
    ∀ {l : List (Nat × β)}, (l.map Prod.fst).Nodup →
      ∀ {p : Nat × β → Bool} {a : Nat × β}, a ∈ l → p a = true →
      (∀ b ∈ l, p b = true → b.1 = a.1) → l.countP p = 1 := by
  intro l
  induction l with
  | nil => intro _ p a ha; cases ha
  | cons x xs ih =>
    intro hnd p a ha hpa huniq
    rw [List.map_cons, List.nodup_cons] at hnd
    rcases List.mem_cons.1 ha with rfl | ha'
    · have h0 : xs.countP p = 0 := List.countP_eq_zero.2 (by
        intro b hb hpb
        apply hnd.1
        rw [← huniq b (List.mem_cons_of_mem _ hb) hpb]
        exact List.mem_map_of_mem Prod.fst hb)
      rw [List.countP_cons, h0]
      simp [hpa]
    · have hpx : p x = false := by
        cases hpx : p x with
        | false => rfl
        | true =>
          exfalso
          apply hnd.1
          rw [huniq x (List.mem_cons_self _ _) hpx]
          exact List.mem_map_of_mem Prod.fst ha'
      have hrec := ih hnd.2 ha' hpa
        (fun b hb hpb => huniq b (List.mem_cons_of_mem _ hb) hpb)
      rw [List.countP_cons, hrec]
      simp [hpx]

theorem mem_unique_fst {β : Type} {l : List (Nat × β)}
    (hnd : (l.map Prod.fst).Nodup) {a b : Nat × β}
    (ha : a ∈ l) (hb : b ∈ l) (hab : a.1 = b.1) : a = b :=
  List.inj_on_of_nodup_map hnd ha hb hab

theorem countP_map_filter {α β : Type} (f : α → β) (p : β → Bool) (q : α → Bool) :
    ∀ l : List α, ((l.filter q).map f).countP p =
      l.countP (fun a => q a && p (f a)) := by
  intro l
  induction l with
  | nil => rfl
  | cons x xs ih =>
    cases hq : q x <;>
      simp [List.filter_cons, hq, List.countP_cons, ih]

/-- Occurrences of typeID `t` in the (sorted) items list of group `g`,
expressed over the raw `types` table. -/
theorem items_countP (groups : List (Nat × MarketGroupData))
    (icons : List (Nat × IconData)) (types : List (Nat × MTypeData))
    (g : Nat) (t : String) :
    (sortBy (fun a b => strLtB a.typeName b.typeName)
      (typesByMgid groups icons types g)).countP (fun i => i.typeID == t) =
    types.countP (fun p =>
      (p.2.marketGroupID == some g && (groups.lookup g).isSome) &&
        natStr p.1 == t) := by
  rw [List.Perm.countP_eq _ (sortBy_perm _ _)]
  rw [typesByMgid, countP_map_filter]
  rfl

/-- The items bucket of group `g` counts an existing type record
exactly once at its own market group and zero times elsewhere. -/
theorem items_count_eq (groups : List (Nat × MarketGroupData))
    (icons : List (Nat × IconData)) {types : List (Nat × MTypeData)}
    (hTnd : (types.map Prod.fst).Nodup)
    {tid : Nat} {td : MTypeData} (hmem : (tid, td) ∈ types)
    (g : Nat) :
    (sortBy (fun a b => strLtB a.typeName b.typeName)
      (typesByMgid groups icons types g)).countP
        (fun i => i.typeID == natStr tid) =
    if td.marketGroupID = some g ∧ (groups.lookup g).isSome = true
      then 1 else 0 := by
  rw [items_countP]
  split_ifs with h
  · apply countP_pairs_one hTnd hmem
    · simp [h.1, h.2]
    · intro b _ hpb
      rw [Bool.and_eq_true, Bool.and_eq_true] at hpb
      exact natStr_inj (beq_iff_eq.1 hpb.2)
  · apply List.countP_eq_zero.2
    intro b hb hpb
    rw [Bool.and_eq_true, Bool.and_eq_true] at hpb
    have hb1 : b.1 = tid := natStr_inj (beq_iff_eq.1 hpb.2)
    have hbeq : b = (tid, td) := mem_unique_fst hTnd hb hmem hb1
    apply h
    refine ⟨?_, hpb.1.2⟩
    have hmg := beq_iff_eq.1 hpb.1.1
    rw [hbeq] at hmg
    exact hmg

theorem sum_single {l : List Nat} {f : Nat → Nat} {c : Nat}
    (hnd : l.Nodup) (hc : c ∈ l) (h1 : f c = 1)
    (h0 : ∀ c' ∈ l, c' ≠ c → f c' = 0) : (l.map f).sum = 1 := by
  induction l with
  | nil => cases hc
  | cons x xs ih =>
    rw [List.nodup_cons] at hnd
    rw [List.map_cons, List.sum_cons]
    rcases List.mem_cons.1 hc with rfl | hc'
    · have hz : (xs.map f).sum = 0 := by
        apply List.sum_eq_zero
        intro y hy
        rcases List.mem_map.1 hy with ⟨c', hc', hyc⟩
        rw [← hyc]
        exact h0 c' (List.mem_cons_of_mem _ hc')
          (fun he => hnd.1 (he ▸ hc'))
      rw [h1, hz]
    · have hx0 : f x = 0 := h0 x (List.mem_cons_self _ _)
        (fun he => hnd.1 (he ▸ hc'))
      rw [hx0, ih hnd.2 hc'
        (fun c' hcc hne => h0 c' (List.mem_cons_of_mem _ hcc) hne)]

theorem countNode_nil (t : String) : countNode [] t = 0 := by
  rw [countNode]
  exact countEntry_sub_nil t

theorem countEntry_sub (n : List (String × MEntry)) (t : String) :
    countEntry (.sub n) t = countNode n t := rfl

theorem countNode_info_items (i : GroupInfo) (xs : List ItemOut) (t : String) :
    countNode [("_info", MEntry.info i), ("items", MEntry.items xs)] t =
      xs.countP (fun x => x.typeID == t) := by
  rw [countNode, countEntry_sub_cons, countEntry_info, countEntry_sub_cons,
    countEntry_items, countEntry_sub_nil]
  omega

theorem childrenOf_mem {groups : List (Nat × MarketGroupData)} {p : Option Nat}
    {c : Nat} (h : c ∈ childrenOf groups p) :
    ∃ cd, (c, cd) ∈ groups ∧ cd.parentGroupID = p := by
  rcases List.mem_map.1 h with ⟨gp, hgp, rfl⟩
  rcases List.mem_filter.1 hgp with ⟨hmem, hbeq⟩
  exact ⟨gp.2, by simpa using hmem, beq_iff_eq.1 hbeq⟩

theorem childrenOf_of_mem {groups : List (Nat × MarketGroupData)}
    {p : Option Nat} {c : Nat} {cd : MarketGroupData}
    (hmem : (c, cd) ∈ groups) (hp : cd.parentGroupID = p) :
    c ∈ childrenOf groups p :=
  List.mem_map_of_mem _ (List.mem_filter.2 ⟨hmem, by rw [hp]; simp⟩)

theorem childrenOf_nodup {groups : List (Nat × MarketGroupData)}
    (hGnd : (groups.map Prod.fst).Nodup) (p : Option Nat) :
    (childrenOf groups p).Nodup :=
  hGnd.sublist (List.Sublist.map Prod.fst (List.filter_sublist groups))

theorem chain_head_mem {groups : List (Nat × MarketGroupData)}
    {fuel m : Nat} (h : chainList groups fuel m ≠ []) :
    m ∈ chainList groups fuel m := by
  rcases chainList_head h with ⟨rest, hr⟩
  rw [hr]
  exact List.mem_cons_self _ _

/-- Merging the per-child singleton dicts adds up their item counts. -/
theorem foldNodes_count (groups : List (Nat × MarketGroupData))
    (icons : List (Nat × IconData)) (types : List (Nat × MTypeData))
    (fuel : Nat) (p : Option Nat) (t : String)
    (hsib : ((childrenOf groups p).map (groupNameKey groups)).Nodup) :
    countNode ((sortBy (fun a b =>
        strLtB (groupNameKey groups a) (groupNameKey groups b))
      (childrenOf groups p)).foldl
      (fun acc c => dfold acc (build_node groups icons types fuel c)) []) t =
    ((childrenOf groups p).map
      (fun c => countNode (build_node groups icons types fuel c) t)).sum := by
  have hperm := sortBy_perm (fun a b =>
    strLtB (groupNameKey groups a) (groupNameKey groups b)) (childrenOf groups p)
  have hnames : ((sortBy (fun a b =>
      strLtB (groupNameKey groups a) (groupNameKey groups b))
      (childrenOf groups p)).map (groupNameKey groups)).Nodup :=
    ((hperm.map (groupNameKey groups)).nodup_iff).2 hsib
  have hpw : (sortBy (fun a b =>
      strLtB (groupNameKey groups a) (groupNameKey groups b))
      (childrenOf groups p)).Pairwise (fun c c' =>
        ∀ kv ∈ build_node groups icons types fuel c,
        ∀ kv' ∈ build_node groups icons types fuel c', kv.1 ≠ kv'.1) := by
    have hne : (sortBy (fun a b =>
        strLtB (groupNameKey groups a) (groupNameKey groups b))
        (childrenOf groups p)).Pairwise (fun c c' =>
          groupNameKey groups c ≠ groupNameKey groups c') :=
      (List.pairwise_map).1 hnames
    refine hne.imp ?_
    intro c c' hcc kv hkv kv' hkv'
    rcases build_node_entry hkv with ⟨cd, n, hlkc, hk, _, _⟩
    rcases build_node_entry hkv' with ⟨cd', n', hlkc', hk', _, _⟩
    rw [hk, hk', ← groupNameKey_eq hlkc, ← groupNameKey_eq hlkc']
    exact hcc
  rw [foldIns_eq_flatten _ _ []
    (by intro c _ kv _ hkv; simp at hkv)
    (by
      intro c _
      rcases build_node_cases groups icons types fuel c with hnil | ⟨gd, n, _, heq⟩
      · rw [hnil]; exact List.nodup_nil
      · rw [heq]; simp)
    hpw]
  rw [List.nil_append, countNode_flatten, List.map_map]
  exact List.Perm.sum_eq (hperm.map _)

/-- A group off the ancestor chain of `m` contributes no occurrence of
the type's id string anywhere in its subtree. -/
theorem build_count_off_chain (groups : List (Nat × MarketGroupData))
    (icons : List (Nat × IconData)) (types : List (Nat × MTypeData))
    {fcTop m tid : Nat} {td : MTypeData}
    (hGnd : (groups.map Prod.fst).Nodup)
    (hTnd : (types.map Prod.fst).Nodup)
    (hmem : (tid, td) ∈ types) (hm : td.marketGroupID = some m)
    (hCne : chainList groups fcTop m ≠ []) :
    ∀ fuel, ∀ {g : Nat}, g ∉ chainList groups fcTop m →
      countNode (build_node groups icons types fuel g) (natStr tid) = 0 := by
  intro fuel
  induction fuel with
  | zero =>
    intro g _
    rw [build_node_zero]
    exact countNode_nil _
  | succ f ih =>
    intro g hg
    cases hlk : groups.lookup g with
    | none =>
      rw [build_node_lookup_none icons types f hlk]
      exact countNode_nil _
    | some gd =>
      cases hht : gd.hasTypes.getD false with
      | true =>
        rw [build_node_true icons types f hlk hht, countNode_singleton,
          countEntry_sub, countNode_info_items,
          items_count_eq groups icons hTnd hmem g]
        have hgm : g ≠ m := fun he => hg (by rw [he]; exact chain_head_mem hCne)
        have hcond : ¬ (td.marketGroupID = some g ∧
            (groups.lookup g).isSome = true) := by
          rintro ⟨h1, _⟩
          rw [hm] at h1
          exact hgm (Option.some.inj h1).symm
        rw [if_neg hcond]
      | false =>
        rw [build_node_false icons types f hlk hht, countNode_singleton,
          countEntry_sub]
        apply countNode_zero
        intro ke hke
        rcases dinsert_mem hke with hin | heq
        · have hin' := (List.Perm.mem_iff (sortBy_perm _ _)).1 hin
          rcases foldIns_mem _ _ _ _ hin' with habs | ⟨c, hc, hkec⟩
          · cases habs
          · obtain ⟨k0, e0⟩ := ke
            have hcch := (List.Perm.mem_iff (sortBy_perm _ _)).1 hc
            rcases childrenOf_mem hcch with ⟨cd, hcdmem, hcdpar⟩
            have hlkc : groups.lookup c = some cd :=
              lookup_of_mem_nodup hGnd hcdmem
            have hcnot : c ∉ chainList groups fcTop m := by
              intro hcC
              apply hg
              have hpf : parentF groups c = some g := by
                rw [parentF_some hlkc, hcdpar]
              have hinf := chainList_parent_infix c hcC hpf
              exact hinf.subset (by simp)
            have hz := ih hcnot
            rcases build_node_entry hkec with ⟨cd', n', _, _, _, hsingle⟩
            have h2 : countEntry e0 (natStr tid) = 0 := by
              rw [← countNode_singleton k0 e0, ← hsingle]
              exact hz
            exact h2
        · cases heq
          exact countEntry_info _ _

/-- A type whose `marketGroupID` is absent or not a key of the group
table occurs nowhere in any subtree. -/
theorem build_count_no_group (groups : List (Nat × MarketGroupData))
    (icons : List (Nat × IconData)) (types : List (Nat × MTypeData))
    {tid : Nat} {td : MTypeData}
    (hTnd : (types.map Prod.fst).Nodup)
    (hmem : (tid, td) ∈ types)
    (hnog : ∀ m', td.marketGroupID = some m' → groups.lookup m' = none) :
    ∀ fuel g, countNode (build_node groups icons types fuel g) (natStr tid) = 0 := by
  intro fuel
  induction fuel with
  | zero =>
    intro g
    rw [build_node_zero]
    exact countNode_nil _
  | succ f ih =>
    intro g
    cases hlk : groups.lookup g with
    | none =>
      rw [build_node_lookup_none icons types f hlk]
      exact countNode_nil _
    | some gd =>
      cases hht : gd.hasTypes.getD false with
      | true =>
        rw [build_node_true icons types f hlk hht, countNode_singleton,
          countEntry_sub, countNode_info_items,
          items_count_eq groups icons hTnd hmem g]
        have hcond : ¬ (td.marketGroupID = some g ∧
            (groups.lookup g).isSome = true) := by
          rintro ⟨h1, h2⟩
          rw [hnog g h1] at h2
          cases h2
        rw [if_neg hcond]
      | false =>
        rw [build_node_false icons types f hlk hht, countNode_singleton,
          countEntry_sub]
        apply countNode_zero
        intro ke hke
        rcases dinsert_mem hke with hin | heq
        · have hin' := (List.Perm.mem_iff (sortBy_perm _ _)).1 hin
          rcases foldIns_mem _ _ _ _ hin' with habs | ⟨c, _, hkec⟩
          · cases habs
          · obtain ⟨k0, e0⟩ := ke
            rcases build_node_entry hkec with ⟨cd', n', _, _, _, hsingle⟩
            have h2 : countEntry e0 (natStr tid) = 0 := by
              rw [← countNode_singleton k0 e0, ← hsingle]
              exact ih c
            exact h2
        · cases heq
          exact countEntry_info _ _

theorem mem_tail_of_suffix_cons2 {x a y : Nat} {l t : List Nat}
    (h : (x :: a :: l) <:+ (y :: t)) : a ∈ t := by
  rcases List.suffix_cons_iff.1 h with heq | hsub
  · injection heq with h1 h2
    rw [← h2]
    exact List.mem_cons_self _ _
  · exact hsub.subset (List.mem_cons_of_mem _ (List.mem_cons_self _ _))

/-- The single count of a `hasTypes` group holding the type. -/
theorem build_count_home (groups : List (Nat × MarketGroupData))
    (icons : List (Nat × IconData)) (types : List (Nat × MTypeData))
    {m tid : Nat} {td : MTypeData} {md : MarketGroupData}
    (hTnd : (types.map Prod.fst).Nodup)
    (hmem : (tid, td) ∈ types) (hm : td.marketGroupID = some m)
    (hlkm : groups.lookup m = some md) (hht : md.hasTypes.getD false = true) :
    ∀ fuel, 1 ≤ fuel →
      countNode (build_node groups icons types fuel m) (natStr tid) = 1 := by
  intro fuel hf
  cases fuel with
  | zero => omega
  | succ f =>
    rw [build_node_true icons types f hlkm hht, countNode_singleton,
      countEntry_sub, countNode_info_items,
      items_count_eq groups icons hTnd hmem m]
    rw [if_pos ⟨hm, by rw [hlkm]; rfl⟩]

/-- Climbing the ancestor chain: every chain element's subtree holds
the type exactly once, provided the chain bottom does. -/
theorem chain_count (groups : List (Nat × MarketGroupData))
    (icons : List (Nat × IconData)) (types : List (Nat × MTypeData))
    {fcTop m tid : Nat} {td : MTypeData}
    (hGnd : (groups.map Prod.fst).Nodup)
    (hTnd : (types.map Prod.fst).Nodup)
    (hinfo : ∀ gp ∈ groups, gnameOf gp.2 gp.1 ≠ "_info")
    (hmem : (tid, td) ∈ types) (hm : td.marketGroupID = some m)
    (hCne : chainList groups fcTop m ≠ [])
    (hCnd : (chainList groups fcTop m).Nodup)
    (htail : ∀ x ∈ (chainList groups fcTop m).tail,
      (groups.lookup x).all (fun xd => !xd.hasTypes.getD false) = true)
    (hsibC : ∀ a ∈ chainList groups fcTop m,
      ((childrenOf groups (some a)).map (groupNameKey groups)).Nodup) :
    ∀ fc g j, chainList groups fc g ≠ [] →
      chainList groups fc g <:+ chainList groups fcTop m →
      (∀ fuel, j ≤ fuel →
        countNode (build_node groups icons types fuel g) (natStr tid) = 1) →
      ∀ a ∈ chainList groups fc g, ∀ fuel,
        j + (chainList groups fc g).length ≤ fuel + 1 →
        countNode (build_node groups icons types fuel a) (natStr tid) = 1 := by
  intro fc
  induction fc with
  | zero => intro g j h; exact absurd rfl h
  | succ f ih =>
    intro g j hne hsuf hg1 a ha fuel hfl
    cases hlk : groups.lookup g with
    | none => exact absurd (chainList_none f hlk) hne
    | some gd =>
      cases hpar : gd.parentGroupID with
      | none =>
        rw [chainList_root f hlk hpar] at ha hfl
        rcases List.mem_singleton.1 ha with rfl
        apply hg1
        simp at hfl
        omega
      | some p =>
        cases hcp : chainList groups f p with
        | nil => exact absurd (chainList_step_nil f hlk hpar hcp) hne
        | cons r rs =>
          have hstep := chainList_step f hlk hpar hcp
          have hrp : r = p := by
            rcases @chainList_head groups f p
              (by rw [hcp]; exact List.cons_ne_nil _ _) with ⟨rest, hrest⟩
            rw [hcp] at hrest
            exact (List.cons.injEq r rs p rest ▸ hrest).1
          rw [hrp] at hstep hcp
          rw [hstep] at ha hfl
          have hsufg : chainList groups (f+1) g <:+ chainList groups fcTop m := hsuf
      
          have hsufP : chainList groups f p <:+ chainList groups fcTop m := by
            refine List.IsSuffix.trans ?_ hsuf
            rw [hstep, hcp]
            exact ⟨[g], rfl⟩
          have hptail : p ∈ (chainList groups fcTop m).tail := by
            rcases chainList_head hCne with ⟨tC, htC⟩
            have hsuf2 : (g :: p :: rs) <:+ (m :: tC) := by
              rw [← hstep, ← htC]
              exact hsuf
            rw [htC, List.tail_cons]
            exact mem_tail_of_suffix_cons2 hsuf2
          have hpC : p ∈ chainList groups fcTop m :=
            List.mem_of_mem_tail hptail
          have hp1 : ∀ fuel', j + 1 ≤ fuel' →
              countNode (build_node groups icons types fuel' p) (natStr tid) = 1 := by
            intro fuel' hf'
            cases fuel' with
            | zero => omega
            | succ f' =>
              rcases chainList_lookup p (by
                rw [hcp]; exact List.mem_cons_self _ _ :
                  p ∈ chainList groups f p) with ⟨pd, hlkp⟩
              have hhtp : pd.hasTypes.getD false = false := by
                have := htail p hptail
                rw [hlkp] at this
                simp [Option.all] at this
                exact this
              rw [build_node_false icons types f' hlkp hhtp,
                countNode_singleton, countEntry_sub]
              have hfreshInfo : "_info" ∉ (sortBy (fun a b => strLtB a.1 b.1)
                  ((sortBy (fun a b =>
                      strLtB (groupNameKey groups a) (groupNameKey groups b))
                    (childrenOf groups (some p))).foldl
                    (fun acc c => dfold acc
                      (build_node groups icons types f' c)) [])).map Prod.fst := by
                intro hk
                rcases List.mem_map.1 hk with ⟨kv, hkv, hkfst⟩
                have hkv' := (List.Perm.mem_iff (sortBy_perm _ _)).1 hkv
                rcases foldIns_mem _ _ _ _ hkv' with habs | ⟨c, _, hkvc⟩
                · cases habs
                · obtain ⟨k0, e0⟩ := kv
                  rcases build_node_entry hkvc with ⟨cd, n, hlkc, hk0, _, _⟩
                  exact hinfo (c, cd) (lookup_mem hlkc)
                    (by rw [← hk0]; exact hkfst)
              rw [dinsert_fresh _ hfreshInfo, countNode_append,
                countNode_singleton, countEntry_info, Nat.add_zero]
              rw [countNode_perm (sortBy_perm _ _) _]
              rw [foldNodes_count groups icons types f' (some p) _ (hsibC p hpC)]
              have hgmem : (g, gd) ∈ groups := lookup_mem hlk
              have hgchild : g ∈ childrenOf groups (some p) :=
                childrenOf_of_mem hgmem hpar
              apply sum_single (childrenOf_nodup hGnd (some p)) hgchild
              · exact hg1 f' (by omega)
              · intro c' hc' hcg
                apply build_count_off_chain groups icons types hGnd hTnd hmem hm hCne
                intro hc'C
                rcases childrenOf_mem hc' with ⟨cd', hcd'mem, hcd'par⟩
                have hlkc' : groups.lookup c' = some cd' :=
                  lookup_of_mem_nodup hGnd hcd'mem
                have hpfc' : parentF groups c' = some p := by
                  rw [parentF_some hlkc', hcd'par]
                have hinf1 : [c', p] <:+: chainList groups fcTop m :=
                  chainList_parent_infix c' hc'C hpfc'
                have hinf2 : [g, p] <:+: chainList groups fcTop m := by
                  refine List.IsInfix.trans ?_ hsufg.isInfix
                  rw [hstep]
                  exact ⟨[], rs, rfl⟩
                exact hcg (pred_unique hCnd hinf1 hinf2)
          rcases List.mem_cons.1 ha with rfl | ha'
          · apply hg1
            simp at hfl
            omega
          · have hlen2 : (j+1) + (chainList groups f p).length ≤ fuel + 1 := by
              rw [hcp]
              simp at hfl ⊢
              omega
            exact ih p (j+1) (by rw [hcp]; exact List.cons_ne_nil _ _) hsufP hp1
              a (by rw [hcp]; exact ha') fuel hlen2

/-- A chain of market groups for the count theorem: root 1 with
`hasTypes=false`, leaf 2 with `hasTypes=true`; type 10 hangs off
group 2 and type 99 points at a missing group. -/
def mtGroupsEx : List (Nat × MarketGroupData) :=
  [(1, ⟨some "A", none, none, some false⟩),
   (2, ⟨some "B", some 1, none, some true⟩)]

def mtTypesEx : List (Nat × MTypeData) :=
  [(10, ⟨some "x", some 2, none, none, none, some true⟩),
   (99, ⟨some "q", some 5, none, none, none, some true⟩)]

/-- C1: corrected statement.  In the market taxonomy, a type whose
`marketGroupID` names an existing `hasTypes` group whose ancestor
chain closes at a forest root through non-`hasTypes` groups occurs in
the `items` lists exactly once (published or not — the published flag
plays no role), and a type whose `marketGroupID` is absent or names no
existing group occurs nowhere.  Distinct sibling display names and the
absence of a group displayed as `_info` are assumed, matching the
dict-merge semantics of the source. -/
theorem market_item_occurrence (groups : List (Nat × MarketGroupData))
    (icons : List (Nat × IconData)) (types : List (Nat × MTypeData))
    (fuel : Nat)
    (hGnd : (groups.map Prod.fst).Nodup)
    (hTnd : (types.map Prod.fst).Nodup)
    (hinfo : ∀ gp ∈ groups, gnameOf gp.2 gp.1 ≠ "_info") :
    (∀ tid td m md, (tid, td) ∈ types → td.marketGroupID = some m →
      groups.lookup m = some md → md.hasTypes.getD false = true →
      chainList groups fuel m ≠ [] →
      (chainList groups fuel m).Nodup →
      (∀ x ∈ (chainList groups fuel m).tail,
        (groups.lookup x).all (fun xd => !xd.hasTypes.getD false) = true) →
      (∀ a ∈ chainList groups fuel m,
        ((childrenOf groups (some a)).map (groupNameKey groups)).Nodup) →
      ((childrenOf groups none).map (groupNameKey groups)).Nodup →
      (chainList groups fuel m).length ≤ fuel →
      countNode (market_tree groups icons types fuel) (natStr tid) = 1) ∧
    (∀ tid td, (tid, td) ∈ types →
      (∀ mx, td.marketGroupID = some mx → groups.lookup mx = none) →
      countNode (market_tree groups icons types fuel) (natStr tid) = 0) := by
  constructor
  · intro tid td m md hmem hm hlkm hht hCne hCnd htail hsibC hsibR hlen
    cases hL : (chainList groups fuel m).getLast? with
    | none => exact absurd (List.getLast?_eq_none_iff.1 hL) hCne
    | some r0 =>
      have hr0C : r0 ∈ chainList groups fuel m := getLast?_mem' hL
      have hpr0 : parentF groups r0 = none := chainList_getLast_parent hL
      rcases chainList_lookup r0 hr0C with ⟨rd, hlkr0⟩
      have hrdpar : rd.parentGroupID = none := by
        rw [parentF_some hlkr0] at hpr0
        exact hpr0
      have hr0root : r0 ∈ childrenOf groups none :=
        childrenOf_of_mem (lookup_mem hlkr0) hrdpar
      rw [market_tree, foldNodes_count groups icons types fuel none _ hsibR]
      apply sum_single (childrenOf_nodup hGnd none) hr0root
      · exact chain_count groups icons types hGnd hTnd hinfo hmem hm hCne hCnd
          htail hsibC fuel m 1 hCne (List.suffix_refl _)
          (build_count_home groups icons types hTnd hmem hm hlkm hht)
          r0 hr0C fuel (by omega)
      · intro r' hr' hne
        apply build_count_off_chain groups icons types hGnd hTnd hmem hm hCne
        intro hr'C
        rcases childrenOf_mem hr' with ⟨rd', hrd'mem, hrd'par⟩
        have hlkr' : groups.lookup r' = some rd' :=
          lookup_of_mem_nodup hGnd hrd'mem
        have hpfr' : parentF groups r' = none := by
          rw [parentF_some hlkr', hrd'par]
        have hlast := chainList_parent_none_last r' hr'C hpfr'
        rw [hL] at hlast
        exact hne (Option.some.inj hlast).symm
  · intro tid td hmem hnog
    rw [market_tree]
    apply countNode_zero
    intro ke hke
    rcases foldIns_mem _ _ _ _ hke with habs | ⟨r, _, hker⟩
    · cases habs
    · obtain ⟨k0, e0⟩ := ke
      rcases build_node_entry hker with ⟨gd, n, _, _, _, hsingle⟩
      have h2 : countEntry e0 (natStr tid) = 0 := by
        rw [← countNode_singleton k0 e0, ← hsingle]
        exact build_count_no_group groups icons types hTnd hmem hnog fuel r
      exact h2

theorem market_item_occurrence_witness :
    countNode (market_tree mtGroupsEx [] mtTypesEx 4) (natStr 10) = 1 ∧
    countNode (market_tree mtGroupsEx [] mtTypesEx 4) (natStr 99) = 0 := by
  have h := market_item_occurrence mtGroupsEx [] mtTypesEx 4
    (by decide) (by decide) (by decide)
  refine ⟨h.1 10 ⟨some "x", some 2, none, none, none, some true⟩ 2
      ⟨some "B", some 1, none, some true⟩
      (by decide) rfl rfl rfl (by decide) (by decide) (by decide)
      (by decide) (by decide) (by decide),
    h.2 99 ⟨some "q", some 5, none, none, none, some true⟩ (by decide) ?_⟩
  intro mx hmx
  have hmx5 : mx = 5 := (Option.some.inj hmx).symm
  subst hmx5
  rfl

/-- C1: counterexample.  The extractor applies no published filter: the
unpublished type 10 lands in the `items` list (with `published: false`
recorded as a field), while the published type 11 — whose market group 2
exists but sits below the `hasTypes` group 1 — appears nowhere. -/
theorem unpublished_item_in_market_tree :
    market_tree mkGroupsEx [] mkTypesEx 3 =
      [("A", MEntry.sub
        [("_info", MEntry.info ⟨"1", "0", "", "True"⟩),
         ("items", MEntry.items [⟨"10", "x", "", "", 0, 0, false⟩])])] ∧
    (10, ⟨some "x", some 1, none, none, none, some false⟩) ∈ mkTypesEx ∧
    (11, ⟨some "y", some 2, none, none, none, some true⟩) ∈ mkTypesEx ∧
    (mkGroupsEx.lookup 2).isSome = true ∧
    countNode (market_tree mkGroupsEx [] mkTypesEx 3) (natStr 10) = 1 ∧
    countNode (market_tree mkGroupsEx [] mkTypesEx 3) (natStr 11) = 0 := by
  have h : market_tree mkGroupsEx [] mkTypesEx 3 =
      [("A", MEntry.sub
        [("_info", MEntry.info ⟨"1", "0", "", "True"⟩),
         ("items", MEntry.items [⟨"10", "x", "", "", 0, 0, false⟩])])] := rfl
  refine ⟨h, by decide, by decide, by decide, ?_, ?_⟩ <;>
    (rw [countNode, h]; simp [countEntry]; decide)

/-- C2: counterexample.  A `hasTypes` group (1, "A") with a child group
(2, "B") emits only `_info` and `items` — the child subtree is absent —
and a non-`hasTypes` group (3, "C") with a directly attached type (12)
emits no `items` list. -/
theorem hasTypes_branches_are_exclusive :
    market_tree shapeGroupsEx [] shapeTypesEx 3 =
      [("A", MEntry.sub
        [("_info", MEntry.info ⟨"1", "0", "", "True"⟩),
         ("items", MEntry.items [⟨"10", "alpha", "", "", 0, 0, true⟩])]),
       ("C", MEntry.sub [("_info", MEntry.info ⟨"3", "0", "", "False"⟩)])] ∧
    (2, ⟨some "B", some 1, none, some true⟩) ∈ shapeGroupsEx ∧
    (12, ⟨some "zeta", some 3, none, none, none, some true⟩) ∈ shapeTypesEx := by
  exact ⟨rfl, by decide, by decide⟩

/-- C2: corrected statement.  `build_node` takes exactly one of the two
branches: with `hasTypes` it emits only the `_info` block and the
sorted `items` list (children are not visited); without `hasTypes` it
emits only the `_info` block and child subtrees (no `items` entry). -/
theorem build_node_branch_shape (groups : List (Nat × MarketGroupData))
    (icons : List (Nat × IconData)) (types : List (Nat × MTypeData))
    (fuel : Nat) (g : Nat) (gd : MarketGroupData)
    (h : groups.lookup g = some gd) :
    (gd.hasTypes.getD false = true →
      build_node groups icons types (fuel+1) g =
        [(gnameOf gd g, MEntry.sub
          [("_info", MEntry.info (mkInfo icons g gd)),
           ("items", MEntry.items (sortBy
             (fun a b => strLtB a.typeName b.typeName)
             (typesByMgid groups icons types g)))])]) ∧
    (gd.hasTypes.getD false = false →
      ∃ n, build_node groups icons types (fuel+1) g =
          [(gnameOf gd g, MEntry.sub n)] ∧
        ∀ ke ∈ n, (ke.1 = "_info" ∧ ke.2 = MEntry.info (mkInfo icons g gd)) ∨
          ∃ s, ke.2 = MEntry.sub s) := by
  constructor
  · intro hht
    exact build_node_true icons types fuel h hht
  · intro hht
    refine ⟨_, build_node_false icons types fuel h hht, ?_⟩
    intro ke hke
    rcases dinsert_mem hke with hin | heq
    · right
      have hin' := (List.Perm.mem_iff (sortBy_perm _ _)).1 hin
      rcases foldIns_mem _ _ _ _ hin' with habs | ⟨c, _, hkec⟩
      · cases habs
      · obtain ⟨k0, e0⟩ := ke
        rcases build_node_entry hkec with ⟨cd, n', _, _, he0, _⟩
        exact ⟨n', he0⟩
    · left
      cases heq
      exact ⟨rfl, rfl⟩

theorem build_node_branch_shape_witness :
    (shapeGroupsEx.lookup 3 = some ⟨some "C", none, none, some false⟩) ∧
    (∃ n, build_node shapeGroupsEx [] shapeTypesEx 3 3 = [("C", MEntry.sub n)] ∧
      ∀ ke ∈ n, (ke.1 = "_info" ∧
          ke.2 = MEntry.info (mkInfo [] 3 ⟨some "C", none, none, some false⟩)) ∨
        ∃ s, ke.2 = MEntry.sub s) :=
  ⟨by decide,
    (build_node_branch_shape shapeGroupsEx [] shapeTypesEx 2 3
      ⟨some "C", none, none, some false⟩ (by decide)).2 rfl⟩

/-- `SubNode x y`: the market-tree value `x` occurs (possibly nested)
inside the value `y`. -/
inductive SubNode : MEntry → MEntry → Prop where
  | refl (e : MEntry) : SubNode e e
  | step {e' e'' : MEntry} {k : String} {n : List (String × MEntry)} :
      (k, e'') ∈ n → SubNode e' e'' → SubNode e' (MEntry.sub n)

theorem dinsert_keys_pairwise_le {α : Type} {d : List (String × α)}
    {k : String} {v : α}
    (hd : (d.map Prod.fst).Pairwise (fun a b => ¬ b < a))
    (hk : ∀ a ∈ d.map Prod.fst, ¬ k < a) :
    ((dinsert d k v).map Prod.fst).Pairwise (fun a b => ¬ b < a) := by
  rw [dinsert_keys]
  split_ifs with h
  · exact hd
  · rw [List.pairwise_append]
    refine ⟨hd, List.pairwise_singleton _ _, ?_⟩
    intro a ha b hb
    rcases List.mem_singleton.1 hb with rfl
    exact hk a ha

theorem dinsert_info_keys_filter {α : Type} (d : List (String × α)) (v : α) :
    ((dinsert d "_info" v).map Prod.fst).filter (fun s => s != "_info") =
      ((d.map Prod.fst).filter (fun s => s != "_info")) := by
  rw [dinsert_keys]
  split_ifs with h
  · rfl
  · rw [List.filter_append]
    simp

theorem build_sub_sorted (groups : List (Nat × MarketGroupData))
    (icons : List (Nat × IconData)) (types : List (Nat × MTypeData)) :
    ∀ fuel g k e, (k, e) ∈ build_node groups icons types fuel g →
      ∀ e', SubNode e' e →
        (∀ xs, e' = MEntry.items xs →
          xs.Pairwise (fun a b => ¬ b.typeName < a.typeName)) ∧
        (∀ n, e' = MEntry.sub n →
          ((n.map Prod.fst).filter (fun s => s != "_info")).Pairwise
            (fun a b => ¬ b < a)) := by
  intro fuel
  induction fuel with
  | zero => intro g k e h; cases h
  | succ f ih =>
    intro g k e h e' hsub
    cases hlk : groups.lookup g with
    | none =>
      rw [build_node_lookup_none icons types f hlk] at h
      cases h
    | some gd =>
      cases hht : gd.hasTypes.getD false with
      | true =>
        rw [build_node_true icons types f hlk hht] at h
        rcases List.mem_singleton.1 h with hke
        have he : e = MEntry.sub
            [("_info", MEntry.info (mkInfo icons g gd)),
             ("items", MEntry.items (sortBy
               (fun a b => strLtB a.typeName b.typeName)
               (typesByMgid groups icons types g)))] := congrArg Prod.snd hke
        subst he
        cases hsub with
        | refl =>
          constructor
          · intro xs hxs
            cases hxs
          · intro n hn
            cases hn
            have hfe : (([("_info", MEntry.info (mkInfo icons g gd)),
                ("items", MEntry.items (sortBy
                  (fun a b => strLtB a.typeName b.typeName)
                  (typesByMgid groups icons types g)))].map
                  Prod.fst).filter (fun s => s != "_info")) = ["items"] := rfl
            rw [hfe]
            exact List.pairwise_singleton _ _
        | step hmem hsub' =>
          rcases List.mem_cons.1 hmem with hinfo1 | hmem2
          · injection hinfo1 with hk2 he2
            rw [he2] at hsub'
            cases hsub'
            constructor
            · intro xs hxs; cases hxs
            · intro n hn; cases hn
          · rcases List.mem_singleton.1 hmem2 with hitems
            injection hitems with hk2 he2
            rw [he2] at hsub'
            cases hsub'
            constructor
            · intro xs hxs
              cases hxs
              exact sortBy_rel_pairwise ItemOut.typeName _
                (fun a b => strLtB_iff _ _) _
            · intro n hn; cases hn
      | false =>
        rw [build_node_false icons types f hlk hht] at h
        rcases List.mem_singleton.1 h with hke
        have he : e = MEntry.sub (dinsert (sortBy (fun a b => strLtB a.1 b.1)
            ((sortBy (fun a b =>
                strLtB (groupNameKey groups a) (groupNameKey groups b))
              (childrenOf groups (some g))).foldl
              (fun acc c => dfold acc (build_node groups icons types f c)) []))
            "_info" (MEntry.info (mkInfo icons g gd))) := congrArg Prod.snd hke
        subst he
        cases hsub with
        | refl =>
          constructor
          · intro xs hxs; cases hxs
          · intro n hn
            cases hn
            rw [dinsert_info_keys_filter]
            apply List.Pairwise.filter
            apply List.pairwise_map.2
            have := sortBy_rel_pairwise (fun kv : String × MEntry => kv.1)
              (fun a b => strLtB a.1 b.1) (fun a b => strLtB_iff _ _)
              ((sortBy (fun a b =>
                  strLtB (groupNameKey groups a) (groupNameKey groups b))
                (childrenOf groups (some g))).foldl
                (fun acc c => dfold acc (build_node groups icons types f c)) [])
            exact this
        | step hmem hsub' =>
          rcases dinsert_mem hmem with hin | heq
          · have hin' := (List.Perm.mem_iff (sortBy_perm _ _)).1 hin
            rcases foldIns_mem _ _ _ _ hin' with habs | ⟨c, _, hkec⟩
            · cases habs
            · exact ih c _ _ hkec e' hsub'
          · injection heq with hk2 he2
            rw [he2] at hsub'
            cases hsub'
            constructor
            · intro xs hxs; cases hxs
            · intro n hn; cases hn

theorem foldIns_keys_sorted (groups : List (Nat × MarketGroupData))
    (icons : List (Nat × IconData)) (types : List (Nat × MTypeData))
    (fuel : Nat) :
    ∀ (cs : List Nat) (acc : List (String × MEntry)),
      ((acc.map Prod.fst).Pairwise (fun a b => ¬ b < a)) →
      (∀ a ∈ acc.map Prod.fst, ∀ c ∈ cs, ¬ groupNameKey groups c < a) →
      cs.Pairwise (fun c c' =>
        ¬ groupNameKey groups c' < groupNameKey groups c) →
      (((cs.foldl (fun acc c =>
          dfold acc (build_node groups icons types fuel c)) acc).map
        Prod.fst).Pairwise (fun a b => ¬ b < a)) := by
  intro cs
  induction cs with
  | nil => intro acc hacc _ _; exact hacc
  | cons c cs' ih =>
    intro acc hacc hcross hpw
    rw [List.pairwise_cons] at hpw
    rw [List.foldl_cons]
    rcases build_node_cases groups icons types fuel c with hnil | ⟨gd, n, hlk, heq⟩
    · rw [hnil]
      exact ih acc hacc
        (fun a ha c' hc' => hcross a ha c' (List.mem_cons_of_mem _ hc')) hpw.2
    · rw [heq]
      have hdf : dfold acc [(gnameOf gd c, MEntry.sub n)] =
          dinsert acc (gnameOf gd c) (MEntry.sub n) := rfl
      rw [hdf]
      have hgk : gnameOf gd c = groupNameKey groups c :=
        (groupNameKey_eq hlk).symm
      apply ih
      · apply dinsert_keys_pairwise_le hacc
        intro a ha
        rw [hgk]
        exact hcross a ha c (List.mem_cons_self _ _)
      · intro a ha c' hc'
        have hsplit : a ∈ acc.map Prod.fst ∨ a = gnameOf gd c := by
          rw [dinsert_keys] at ha
          split_ifs at ha with h
          · exact Or.inl ha
          · rcases List.mem_append.1 ha with h1 | h2
            · exact Or.inl h1
            · exact Or.inr (List.mem_singleton.1 h2)
        rcases hsplit with h1 | h2
        · exact hcross a h1 c' (List.mem_cons_of_mem _ hc')
        · rw [h2, hgk]
          exact hpw.1 c' hc'
      · exact hpw.2

/-- C3: corrected statement.  Every ordering in the market tree is by
code-point (case-sensitive) comparison, ascending: the top-level keys,
the non-`_info` keys of every nested group node, and every `items`
list (by `typeName`). -/
theorem market_tree_sorted (groups : List (Nat × MarketGroupData))
    (icons : List (Nat × IconData)) (types : List (Nat × MTypeData))
    (fuel : Nat) :
    (((market_tree groups icons types fuel).map Prod.fst).Pairwise
      (fun a b => ¬ b < a)) ∧
    ∀ ke ∈ market_tree groups icons types fuel, ∀ e', SubNode e' ke.2 →
      (∀ xs, e' = MEntry.items xs →
        xs.Pairwise (fun a b => ¬ b.typeName < a.typeName)) ∧
      (∀ n, e' = MEntry.sub n →
        ((n.map Prod.fst).filter (fun s => s != "_info")).Pairwise
          (fun a b => ¬ b < a)) := by
  constructor
  · rw [market_tree]
    apply foldIns_keys_sorted
    · exact List.Pairwise.nil
    · intro a ha
      simp at ha
    · exact sortBy_rel_pairwise (groupNameKey groups) _
        (fun a b => strLtB_iff _ _) _
  · intro ke hke e' hsub
    rcases foldIns_mem _ _ _ _ hke with habs | ⟨r, _, hker⟩
    · cases habs
    · obtain ⟨k0, e0⟩ := ke
      exact build_sub_sorted groups icons types fuel r k0 e0 hker e' hsub

/-- C3: counterexample.  The sorts compare raw code points, not
case-folded names: the two items come out `["Beta", "alpha"]`, although
case-insensitively `alpha` precedes `Beta`. -/
theorem market_items_sorted_case_sensitively :
    market_tree ciGroupsEx [] ciTypesEx 2 =
      [("A", MEntry.sub
        [("_info", MEntry.info ⟨"1", "0", "", "True"⟩),
         ("items", MEntry.items
           [⟨"11", "Beta", "", "", 0, 0, true⟩,
            ⟨"10", "alpha", "", "", 0, 0, true⟩])])] ∧
    strLtB (lowerStr "alpha") (lowerStr "Beta") = true ∧
    strLtB "Beta" "alpha" = true := by
  exact ⟨rfl, by decide, by decide⟩

end EveSDE
